import Mathlib

/-!
A verification development for `semver.go`.

The Go package `semver` holds a three segment version number with a textual
prefix and converts it to and from text and JSON.  This file embeds the
package in Lean and proves properties of the conversions.

Conventions of the embedding:

* a Go `string` / `[]byte` is a list of bytes, each byte a natural number
  (`Bytes`); the conversions `string(b)` and `[]byte(s)` are the identity;
* a `uint16` field is a natural number, and the conversion `uint16(u)` is
  written `u % 65536`;
* a method with a pointer receiver that mutates it takes the receiver state
  and returns the new state next to its Go results;
* a Go `error` result is an `Option Error`, `none` standing for `nil`;
* the standard library functions the package calls (`strings.Split`,
  `regexp.FindString` for the one pattern used, `strconv.ParseUint`,
  `strconv.Quote`, the `%v` verb of `fmt.Sprintf` on an unsigned integer) are
  modelled from their documented behaviour.
-/

namespace Semver

/-- A byte string: the contents of a Go `string` or `[]byte`. -/
abbrev Bytes := List Nat

/-- The bytes of an ASCII string literal, used to write test inputs. -/
def ascii (s : String) : Bytes := s.toList.map Char.toNat

/-- The errors the package and the library functions it calls can return. -/
inductive Error where
  /-- `fmt.Errorf("… text does not contain three dot separated segments")` -/
  | notThreeSegments
  /-- `fmt.Errorf("… json string is too short")` -/
  | jsonTooShort
  /-- `strconv.NumError` wrapping `strconv.ErrSyntax` -/
  | numSyntax
  /-- `strconv.NumError` wrapping `strconv.ErrRange` -/
  | numRange
  /-- `strconv.NumError` for an invalid base -/
  | numBase
  /-- `strconv.NumError` for an invalid bit size -/
  | numBitSize
  deriving DecidableEq, Repr

/-- Version holds a three segment software version (`type Version struct`). -/
structure Version where
  pfx : Bytes
  major : Nat
  minor : Nat
  patch : Nat
  deriving DecidableEq, Repr

/-- The zero value of `Version`. -/
def Version.zero : Version := ⟨[], 0, 0, 0⟩

/-- The fields of a `Version` fit their `uint16` type. -/
def Version.InRange (v : Version) : Prop :=
  v.major < 65536 ∧ v.minor < 65536 ∧ v.patch < 65536

instance (v : Version) : Decidable v.InRange := by
  unfold Version.InRange; infer_instance

/-! ## Library functions -/

/-- The byte is an ASCII decimal digit, `'0' <= c && c <= '9'`. -/
def isDigit (c : Nat) : Bool := decide (48 ≤ c) && decide (c ≤ 57)

/-- The loop of `fmt`'s integer formatting in base 10: digits are produced
from the least significant one while `u >= 10`, then the leading digit.  The
first argument bounds the number of iterations. -/
def fmtLoop : Nat → Nat → Bytes
  | 0, u => [48 + u]
  | fuel + 1, u => if u < 10 then [48 + u] else fmtLoop fuel (u / 10) ++ [48 + u % 10]

/-- The verb `%v` of `fmt.Sprintf` applied to an unsigned integer: its decimal
numeral.  `u` iterations are enough for the loop, as `u / 10 < u`. -/
def fmtUint (u : Nat) : Bytes := fmtLoop u u

/-- The function `strings.Split(s, ".")` for a one byte separator: the
substrings of `s` between the occurrences of `sep`; one more substring than
there are separators, and `[""]` for the empty string. -/
def Split (sep : Nat) : Bytes → List Bytes
  | [] => [[]]
  | c :: cs =>
    if c = sep then [] :: Split sep cs
    else match Split sep cs with
      | seg :: rest => (c :: seg) :: rest
      | [] => [[c]]

/-- The pattern `[0-9]{1,4}$` matches at the start of `s` exactly and covers
all of it: `s` is one to four decimal digits, and the text ends there. -/
def firstSegMatchHere (s : Bytes) : Bool :=
  decide (1 ≤ s.length) && decide (s.length ≤ 4) && s.all isDigit

/-- The call `firstSegRegex.FindString(s)` for `firstSegRegex =
regexp.MustCompile("[0-9]{1,4}$")`: the text of the leftmost match, or the
empty string when there is none.  Start positions are tried from the left. -/
def FindString : Bytes → Bytes
  | [] => []
  | c :: cs => if firstSegMatchHere (c :: cs) then c :: cs else FindString cs

/-- The function `lower` of `strconv`: `c | ('x' - 'X')`. -/
def lower (c : Nat) : Nat := c ||| 32

/-- The digit loop of `strconv.ParseUint`, `n` being the value so far.  Per
byte: the digit value `d` of the byte (a syntax error if it has none or if
`d >= base`; underscores are allowed only for base 0), a range error if
`n >= cutoff` (`n * base` would overflow 64 bits) or if `n * base + d` wraps
around or exceeds `maxVal`. -/
def parseLoop (base cutoff maxVal : Nat) : Nat → Bytes → Except Error Nat
  | n, [] => .ok n
  | n, c :: cs =>
    let d : Option Nat :=
      if 48 ≤ c ∧ c ≤ 57 then some (c - 48)
      else if 97 ≤ lower c ∧ lower c ≤ 122 then some (lower c - 97 + 10)
      else none
    match d with
    | none => .error .numSyntax
    | some d =>
      if d ≥ base then .error .numSyntax
      else if n ≥ cutoff then .error .numRange
      else
        let n0 := (n * base) % 2 ^ 64
        let n1 := (n0 + d) % 2 ^ 64
        if n1 < n0 ∨ n1 > maxVal then .error .numRange
        else parseLoop base cutoff maxVal n1 cs

/-- The function `strconv.ParseUint(s, base, bitSize)` for an explicit base
`2 <= base <= 36` (the package calls it with base 10 only; the base 0 mode,
which reads a base marker from the text, is answered with the error of an
invalid base here). -/
def ParseUint (s : Bytes) (base bitSize : Nat) : Except Error Nat :=
  if s = [] then .error .numSyntax
  else if ¬ (2 ≤ base ∧ base ≤ 36) then .error .numBase
  else if bitSize > 64 then .error .numBitSize
  else
    let bits := if bitSize = 0 then 64 else bitSize
    parseLoop base ((2 ^ 64 - 1) / base + 1) (2 ^ bits - 1) 0 s

/-- The constant `utf8.RuneError`, U+FFFD. -/
def RuneError : Nat := 0xFFFD

/-- A UTF-8 continuation byte, `0x80 <= c <= 0xBF`. -/
def isCont (c : Nat) : Bool := decide (0x80 ≤ c) && decide (c ≤ 0xBF)

/-- The function `utf8.DecodeRuneInString`: the first rune of `s` and its
width in bytes; `(RuneError, 1)` when `s` does not start with a well formed
encoding, `(RuneError, 0)` when `s` is empty. -/
def DecodeRune : Bytes → Nat × Nat
  | [] => (RuneError, 0)
  | s0 :: rest =>
    if s0 < 0x80 then (s0, 1)
    else if 0xC2 ≤ s0 ∧ s0 ≤ 0xDF then
      match rest with
      | s1 :: _ =>
        if isCont s1 then ((s0 % 32) * 64 + s1 % 64, 2) else (RuneError, 1)
      | _ => (RuneError, 1)
    else if 0xE0 ≤ s0 ∧ s0 ≤ 0xEF then
      match rest with
      | s1 :: s2 :: _ =>
        let lo := if s0 = 0xE0 then 0xA0 else 0x80
        let hi := if s0 = 0xED then 0x9F else 0xBF
        if lo ≤ s1 ∧ s1 ≤ hi ∧ isCont s2 then
          ((s0 % 16) * 4096 + (s1 % 64) * 64 + s2 % 64, 3)
        else (RuneError, 1)
      | _ => (RuneError, 1)
    else if 0xF0 ≤ s0 ∧ s0 ≤ 0xF4 then
      match rest with
      | s1 :: s2 :: s3 :: _ =>
        let lo := if s0 = 0xF0 then 0x90 else 0x80
        let hi := if s0 = 0xF4 then 0x8F else 0xBF
        if lo ≤ s1 ∧ s1 ≤ hi ∧ isCont s2 ∧ isCont s3 then
          ((s0 % 8) * 262144 + (s1 % 64) * 4096 + (s2 % 64) * 64 + s3 % 64, 4)
        else (RuneError, 1)
      | _ => (RuneError, 1)
    else (RuneError, 1)

/-- The function `utf8.ValidRune`: not a surrogate and at most U+10FFFF. -/
def ValidRune (r : Nat) : Bool :=
  decide (r < 0xD800) || (decide (0xDFFF < r) && decide (r ≤ 0x10FFFF))

/-- The function `utf8.AppendRune`: the UTF-8 encoding of the rune. -/
def AppendRune (r : Nat) : Bytes :=
  if r < 0x80 then [r]
  else if r < 0x800 then [0xC0 + r / 64, 0x80 + r % 64]
  else if ¬ ValidRune r then [0xEF, 0xBF, 0xBD]
  else if r < 0x10000 then [0xE0 + r / 4096, 0x80 + r / 64 % 64, 0x80 + r % 64]
  else [0xF0 + r / 262144, 0x80 + r / 4096 % 64, 0x80 + r / 64 % 64, 0x80 + r % 64]

/-- The function `strconv.IsPrint`.  Up to U+00FF it is decided by ranges;
above, Go looks the rune up in generated tables, here the parameter `tab`. -/
def IsPrint (tab : Nat → Bool) (r : Nat) : Bool :=
  if r ≤ 0xFF then
    if 0x20 ≤ r ∧ r ≤ 0x7E then true
    else if 0xA1 ≤ r then r != 0xAD
    else false
  else tab r

/-- The table `lowerhex = "0123456789abcdef"` at index `d`. -/
def lowerhex (d : Nat) : Nat := if d < 10 then 48 + d else 87 + d

/-- The hexadecimal digits of `r` from bit `4 * k - 4` down to bit 0. -/
def hexDigits : Nat → Nat → Bytes
  | 0, _ => []
  | k + 1, r => lowerhex (r / 16 ^ k % 16) :: hexDigits k r

/-- The function `appendEscapedRune` of `strconv` as called by `Quote`
(quote character `"`, neither ASCII-only nor graphic-only): the bytes it
appends for the rune `r`. -/
def appendEscapedRune (tab : Nat → Bool) (r : Nat) : Bytes :=
  if r = 34 ∨ r = 92 then [92, r]
  else if IsPrint tab r then AppendRune r
  else if r = 7 then [92, 97]
  else if r = 8 then [92, 98]
  else if r = 12 then [92, 102]
  else if r = 10 then [92, 110]
  else if r = 13 then [92, 114]
  else if r = 9 then [92, 116]
  else if r = 11 then [92, 118]
  else if r < 32 ∨ r = 0x7F then [92, 120, lowerhex (r / 16), lowerhex (r % 16)]
  else if ¬ ValidRune r then 92 :: 117 :: hexDigits 4 RuneError
  else if r < 0x10000 then 92 :: 117 :: hexDigits 4 r
  else 92 :: 85 :: hexDigits 8 r

/-- The loop of `appendQuotedWith`: at each position the rune at the head is
decoded and escaped, and the loop moves on by its width.  The first argument
counts the bytes of the current rune still to be passed over. -/
def quoteLoop (tab : Nat → Bool) : Nat → Bytes → Bytes
  | _, [] => []
  | skip + 1, _ :: cs => quoteLoop tab skip cs
  | 0, c :: cs =>
    let rw : Nat × Nat := if c ≥ 0x80 then DecodeRune (c :: cs) else (c, 1)
    let out : Bytes :=
      if rw.2 = 1 ∧ rw.1 = RuneError then [92, 120, lowerhex (c / 16), lowerhex (c % 16)]
      else appendEscapedRune tab rw.1
    out ++ quoteLoop tab (rw.2 - 1) cs

/-- The function `strconv.Quote`: a double-quoted Go string literal for `s`. -/
def Quote (tab : Nat → Bool) (s : Bytes) : Bytes :=
  34 :: (quoteLoop tab 0 s ++ [34])

/-- The index expression `l[i]`: `none` is the run-time panic of an index out
of range. -/
def index {α : Type} (l : List α) (i : Nat) : Option α := l.get? i

/-- The slice expression `s[lo:hi]`: `none` is the run-time panic of slice
bounds out of range. -/
def slice (s : Bytes) (lo hi : Int) : Option Bytes :=
  if 0 ≤ lo ∧ lo ≤ hi ∧ hi ≤ s.length then some ((s.take hi.toNat).drop lo.toNat)
  else none

/-! ## The package -/

/-- The outcome of a method that mutates its receiver and returns an `error`:
`none` is a run-time panic, otherwise the receiver afterwards and the error. -/
abbrev Result := Option (Version × Option Error)

/-- GetPrefix will get the prefix currently used. -/
def Version.GetPrefix (v : Version) : Bytes := v.pfx

/-- GetMajor will get the current major version. -/
def Version.GetMajor (v : Version) : Nat := v.major

/-- GetMinor will get the current minor version. -/
def Version.GetMinor (v : Version) : Nat := v.minor

/-- GetPatch will get the current patch version. -/
def Version.GetPatch (v : Version) : Nat := v.patch

/-- SetPrefix will set the prefix used in string versions of this to `val`. -/
def Version.SetPrefix (v : Version) (val : Bytes) : Version := { v with pfx := val }

/-- SetMajor will set the major version to `val`. -/
def Version.SetMajor (v : Version) (val : Nat) : Version := { v with major := val }

/-- SetMinor will set the minor version to `val`. -/
def Version.SetMinor (v : Version) (val : Nat) : Version := { v with minor := val }

/-- SetPatch will set the patch version to `val`. -/
def Version.SetPatch (v : Version) (val : Nat) : Version := { v with patch := val }

/-- String implements `fmt.Stringer`:
`fmt.Sprintf("%s%v.%v.%v", v.pfx, v.major, v.minor, v.patch)`. -/
def Version.String (v : Version) : Bytes :=
  v.pfx ++ fmtUint v.major ++ [46] ++ fmtUint v.minor ++ [46] ++ fmtUint v.patch

/-- Bytes returns a byte array containing this version string. -/
def Version.Bytes (v : Version) : Semver.Bytes := v.String

/-- MarshalText implements `encoding.TextMarshaler`. -/
def Version.MarshalText (v : Version) : Semver.Bytes × Option Error := (v.Bytes, none)

/-- UnmarshalText implements `encoding.TextUnmarshaler`.  The receiver is
written field by field as the segments are parsed. -/
def Version.UnmarshalText (v : Version) (b : Semver.Bytes) : Result :=
  let s := b
  let segs := Split 46 s
  if segs.length < 3 then some (v, some .notThreeSegments)
  else
    (index segs 0).bind fun seg0 =>
    let num := FindString seg0
    let pe : Int := (seg0.length : Int) - (num.length : Int)
    (if pe > 0 then (slice seg0 0 pe).map fun p => { v with pfx := p }
     else some { v with pfx := [] }).bind fun v1 =>
    match ParseUint num 10 16 with
    | .error err => some (v1, some err)
    | .ok u =>
      let v2 := { v1 with major := u % 65536 }
      (index segs 1).bind fun seg1 =>
      match ParseUint seg1 10 16 with
      | .error err => some (v2, some err)
      | .ok u =>
        let v3 := { v2 with minor := u % 65536 }
        (index segs 2).bind fun seg2 =>
        match ParseUint seg2 10 16 with
        | .error err => some (v3, some err)
        | .ok u => some ({ v3 with patch := u % 65536 }, none)

/-- MarshalJSON implements `json.Marshaler`: `strconv.Quote(v.String())`. -/
def Version.MarshalJSON (tab : Nat → Bool) (v : Version) : Semver.Bytes × Option Error :=
  (Quote tab v.String, none)

/-- The body of `UnmarshalJSON`, with the text parser it hands the interior
bytes to as a parameter. -/
def Version.UnmarshalJSONWith (text : Version → Semver.Bytes → Result)
    (v : Version) (b : Semver.Bytes) : Result :=
  let l : Int := b.length
  if l < 3 then some (v, some .jsonTooShort)
  else (slice b 1 (l - 1)).bind fun inner => text v inner

/-- UnmarshalJSON implements `json.Unmarshaler`. -/
def Version.UnmarshalJSON (v : Version) (b : Semver.Bytes) : Result :=
  Version.UnmarshalJSONWith Version.UnmarshalText v b

/-! ## Notions used to state the properties -/

/-- The base-10 value of a digit string read from the left, starting from the
value `n` of the digits already read. -/
def decValFrom (n : Nat) (s : Bytes) : Nat :=
  s.foldl (fun acc c => 10 * acc + (c - 48)) n

/-- The base-10 value of a digit string. -/
def decVal (s : Bytes) : Nat := decValFrom 0 s

/-- The string is made of ASCII decimal digits only. -/
def allDigits (s : Bytes) : Bool := s.all isDigit

/-- The string ends with an ASCII decimal digit. -/
def endsInDigit (s : Bytes) : Bool :=
  match s.getLast? with
  | some c => isDigit c
  | none => false

/-- The string `d` is the canonical decimal numeral of `n`: not empty, digits
only, of value `n`, and without a leading zero unless it is the numeral `0`. -/
def IsCanonicalDec (d : Bytes) (n : Nat) : Prop :=
  d ≠ [] ∧ allDigits d = true ∧ decVal d = n ∧ (d.head? = some 48 → d = [48])

instance (d : Bytes) (n : Nat) : Decidable (IsCanonicalDec d n) := by
  unfold IsCanonicalDec; infer_instance

/-- A numeric segment as the parser accepts it: a non-empty string of digits
whose base-10 value is at most 65535. -/
def IsUint16Text (s : Bytes) : Prop :=
  s ≠ [] ∧ allDigits s = true ∧ decVal s ≤ 65535

instance (s : Bytes) : Decidable (IsUint16Text s) := by
  unfold IsUint16Text; infer_instance

/-- The fields the specification gives for an accepted input `b`: the first
segment is the prefix followed by `d`, the longest suffix of the segment made
of one to four digits; major, minor and patch are the base-10 values of `d`
and of the second and third segments. -/
def ParsedFrom (b : Bytes) (r : Version) : Prop :=
  ∃ seg0 seg1 seg2 rest d,
    Split 46 b = seg0 :: seg1 :: seg2 :: rest ∧
    seg0 = r.pfx ++ d ∧ allDigits d = true ∧ 1 ≤ d.length ∧ d.length ≤ 4 ∧
    (d.length = 4 ∨ r.pfx = [] ∨ ∃ c, r.pfx.getLast? = some c ∧ isDigit c = false) ∧
    (∀ q e, seg0 = q ++ e → allDigits e = true → 1 ≤ e.length → e.length ≤ 4 →
      e.length ≤ d.length) ∧
    r.major = decVal d ∧ r.minor = decVal seg1 ∧ r.patch = decVal seg2

/-- The acceptance condition of the specification: at least three segments,
the first ending in a digit, the second and third each a non-empty digit
string of value at most 65535. -/
def TextAccepted (b : Bytes) : Prop :=
  3 ≤ (Split 46 b).length ∧
  endsInDigit ((Split 46 b).getD 0 []) = true ∧
  IsUint16Text ((Split 46 b).getD 1 []) ∧
  IsUint16Text ((Split 46 b).getD 2 [])

instance (b : Bytes) : Decidable (TextAccepted b) := by
  unfold TextAccepted; infer_instance

/-- The receiver `r` a failed text parse of `b` leaves, from the receiver `v`
before the call: unchanged when `b` has fewer than three segments; otherwise
the prefix is overwritten with the first segment less its captured digits,
major is overwritten when the first segment ends in a digit, minor when in
addition the second segment is a number, and patch keeps its old value. -/
def FailedWrite (v : Version) (b : Bytes) (r : Version) : Prop :=
  ((Split 46 b).length < 3 ∧ r = v) ∨
  ∃ seg0 seg1 seg2 rest,
    Split 46 b = seg0 :: seg1 :: seg2 :: rest ∧
    r.pfx = seg0.take (seg0.length - (FindString seg0).length) ∧
    r.patch = v.patch ∧
    ((endsInDigit seg0 = false ∧ r.major = v.major ∧ r.minor = v.minor) ∨
     (endsInDigit seg0 = true ∧ r.major = decVal (FindString seg0) ∧
       ((¬ IsUint16Text seg1 ∧ r.minor = v.minor) ∨
        (IsUint16Text seg1 ∧ ¬ IsUint16Text seg2 ∧ r.minor = decVal seg1))))

/-- A byte that a quoted string shows as it is: a printable ASCII character
(`0x20` to `0x7E`) other than the double quote and the backslash. -/
def plainByte (c : Nat) : Bool :=
  decide (0x20 ≤ c) && decide (c ≤ 0x7E) && decide (c ≠ 34) && decide (c ≠ 92)

/-- How a quoted string shows an ASCII byte: a backslash before a double quote
or a backslash, the other printable characters as they are, the control
characters with a short escape by their letter (`a b f n r t v`) and the
remaining ones, DEL included, as a backslash, `x` and two hexadecimal digits. -/
def escapeASCII (c : Nat) : Bytes :=
  if c = 34 ∨ c = 92 then [92, c]
  else if 0x20 ≤ c ∧ c ≤ 0x7E then [c]
  else if c = 7 then [92, 97]
  else if c = 8 then [92, 98]
  else if c = 12 then [92, 102]
  else if c = 10 then [92, 110]
  else if c = 13 then [92, 114]
  else if c = 9 then [92, 116]
  else if c = 11 then [92, 118]
  else [92, 120, lowerhex (c / 16), lowerhex (c % 16)]

/-! ## Lemmas on the library functions -/

theorem isDigit_iff (c : Nat) : isDigit c = true ↔ 48 ≤ c ∧ c ≤ 57 := by
  simp [isDigit]

theorem decValFrom_nil (n : Nat) : decValFrom n [] = n := rfl

theorem decValFrom_cons (n c : Nat) (cs : Bytes) :
    decValFrom n (c :: cs) = decValFrom (10 * n + (c - 48)) cs := rfl

theorem decValFrom_append (n : Nat) (s t : Bytes) :
    decValFrom n (s ++ t) = decValFrom (decValFrom n s) t := by
  simp [decValFrom, List.foldl_append]

theorem le_decValFrom (s : Bytes) : ∀ n, n ≤ decValFrom n s := by
  induction s with
  | nil => intro n; simp [decValFrom_nil]
  | cons c cs ih =>
    intro n
    rw [decValFrom_cons]
    have := ih (10 * n + (c - 48))
    omega

theorem allDigits_nil : allDigits [] = true := rfl

theorem allDigits_cons (c : Nat) (cs : Bytes) :
    allDigits (c :: cs) = (isDigit c && allDigits cs) := by
  simp [allDigits]

theorem allDigits_append (s t : Bytes) :
    allDigits (s ++ t) = (allDigits s && allDigits t) := by
  simp [allDigits]

theorem allDigits_iff (s : Bytes) : allDigits s = true ↔ ∀ c ∈ s, isDigit c = true := by
  simp [allDigits]

/-! ### Decimal formatting -/

theorem fmtLoop_ne_nil (fuel u : Nat) : fmtLoop fuel u ≠ [] := by
  cases fuel with
  | zero => simp [fmtLoop]
  | succ f =>
    unfold fmtLoop
    split <;> simp

theorem fmtLoop_allDigits : ∀ fuel u, u ≤ fuel → allDigits (fmtLoop fuel u) = true := by
  intro fuel
  induction fuel with
  | zero =>
    intro u hu
    have : u = 0 := by omega
    subst this
    decide
  | succ f ih =>
    intro u hu
    unfold fmtLoop
    split
    · rw [allDigits_cons, (isDigit_iff _).mpr ⟨by omega, by omega⟩]; rfl
    · rw [allDigits_append, ih (u / 10) (by omega), allDigits_cons,
        (isDigit_iff _).mpr ⟨by omega, by omega⟩]; rfl

theorem decVal_fmtLoop : ∀ fuel u, u ≤ fuel → decVal (fmtLoop fuel u) = u := by
  intro fuel
  induction fuel with
  | zero =>
    intro u hu
    have : u = 0 := by omega
    subst this
    decide
  | succ f ih =>
    intro u hu
    unfold fmtLoop
    split
    · simp [decVal, decValFrom_cons, decValFrom_nil]
    · have h := ih (u / 10) (by omega)
      unfold decVal at h ⊢
      rw [decValFrom_append, h, decValFrom_cons, decValFrom_nil]
      omega

theorem fmtLoop_head : ∀ fuel u, u ≤ fuel →
    (fmtLoop fuel u).head? = some 48 → fmtLoop fuel u = [48] := by
  intro fuel
  induction fuel with
  | zero => intro u hu; have : u = 0 := by omega
            subst this; intro _; rfl
  | succ f ih =>
    intro u hu
    unfold fmtLoop
    split
    · intro h
      simp at h
      subst h
      rfl
    · intro h
      exfalso
      have hne := fmtLoop_ne_nil f (u / 10)
      have h2 : (fmtLoop f (u / 10)).head? = some 48 := by
        cases hl : fmtLoop f (u / 10) with
        | nil => exact absurd hl hne
        | cons a as => rw [hl] at h; simpa using h
      have h3 := ih (u / 10) (by omega) h2
      have h4 := decVal_fmtLoop f (u / 10) (by omega)
      rw [h3] at h4
      have : decVal [48] = 0 := by decide
      omega

theorem fmtLoop_length : ∀ fuel u k, u ≤ fuel → u < 10 ^ (k + 1) →
    (fmtLoop fuel u).length ≤ k + 1 := by
  intro fuel
  induction fuel with
  | zero => intro u k _ _; simp [fmtLoop]
  | succ f ih =>
    intro u k hu hk
    unfold fmtLoop
    split
    · simp
    · cases k with
      | zero => simp at hk; omega
      | succ k =>
        have := ih (u / 10) k (by omega) (by
          rw [pow_succ] at hk
          exact Nat.div_lt_of_lt_mul (by omega))
        simp
        omega

theorem fmtUint_ne_nil (u : Nat) : fmtUint u ≠ [] := fmtLoop_ne_nil u u

theorem fmtUint_allDigits (u : Nat) : allDigits (fmtUint u) = true :=
  fmtLoop_allDigits u u (Nat.le_refl u)

theorem decVal_fmtUint (u : Nat) : decVal (fmtUint u) = u :=
  decVal_fmtLoop u u (Nat.le_refl u)

theorem fmtUint_canonical (u : Nat) : IsCanonicalDec (fmtUint u) u :=
  ⟨fmtUint_ne_nil u, fmtUint_allDigits u, decVal_fmtUint u,
    fmtLoop_head u u (Nat.le_refl u)⟩

theorem fmtUint_length_le_four (u : Nat) (h : u ≤ 9999) : (fmtUint u).length ≤ 4 :=
  fmtLoop_length u u 3 (Nat.le_refl u) (by norm_num; omega)

theorem fmtUint_not_mem_dot (u : Nat) : 46 ∉ fmtUint u := by
  intro h
  have := (allDigits_iff _).mp (fmtUint_allDigits u) 46 h
  simp [isDigit] at this

/-! ### Parsing an unsigned integer -/

theorem parseLoop_ok_iff (s : Bytes) : ∀ n m, n ≤ 65535 →
    (parseLoop 10 ((2 ^ 64 - 1) / 10 + 1) (2 ^ 16 - 1) n s = .ok m ↔
      allDigits s = true ∧ decValFrom n s = m ∧ m ≤ 65535) := by
  induction s with
  | nil =>
    intro n m hn
    simp only [parseLoop, decValFrom_nil, allDigits_nil, Except.ok.injEq, true_and]
    constructor
    · intro h; subst h; exact ⟨rfl, hn⟩
    · intro h; exact h.1
  | cons c cs ih =>
    intro n m hn
    rw [allDigits_cons, decValFrom_cons]
    unfold parseLoop
    by_cases hd : 48 ≤ c ∧ c ≤ 57
    · have hdig : isDigit c = true := (isDigit_iff c).mpr hd
      simp only [hd, and_self, if_true, hdig, Bool.true_and]
      have h1 : ¬ (c - 48 ≥ 10) := by omega
      have h2 : ¬ (n ≥ (2 ^ 64 - 1) / 10 + 1) := by norm_num; omega
      have h3 : n * 10 % 2 ^ 64 = n * 10 := Nat.mod_eq_of_lt (by norm_num; omega)
      have h4 : (n * 10 + (c - 48)) % 2 ^ 64 = n * 10 + (c - 48) :=
        Nat.mod_eq_of_lt (by norm_num; omega)
      simp only [h1, h2, if_false, h3, h4]
      by_cases hr : n * 10 + (c - 48) > 2 ^ 16 - 1
      · have hlt : ¬ (n * 10 + (c - 48) < n * 10) := by omega
        simp only [hr, or_true, if_true]
        constructor
        · intro h; cases h
        · rintro ⟨_, hv, hm⟩
          have := le_decValFrom cs (10 * n + (c - 48))
          norm_num at hr
          omega
      · have hlt : ¬ (n * 10 + (c - 48) < n * 10) := by omega
        simp only [hr, hlt, or_self, if_false]
        have hle : n * 10 + (c - 48) ≤ 65535 := by norm_num at hr; omega
        rw [ih (n * 10 + (c - 48)) m hle, Nat.mul_comm n 10]
    · have hdig : isDigit c = false := by
        cases h : isDigit c
        · rfl
        · exact absurd ((isDigit_iff c).mp h) hd
      simp only [hd, if_false, hdig, Bool.false_and]
      constructor
      · intro h
        exfalso
        by_cases hl : 97 ≤ lower c ∧ lower c ≤ 122
        · simp only [hl, and_self, if_true] at h
          have : lower c - 97 + 10 ≥ 10 := by omega
          simp only [this, if_true] at h
          cases h
        · simp only [hl, if_false] at h
          cases h
      · rintro ⟨h, _⟩; cases h

theorem ParseUint_ok_iff (s : Bytes) (m : Nat) :
    ParseUint s 10 16 = .ok m ↔
      s ≠ [] ∧ allDigits s = true ∧ decVal s = m ∧ m ≤ 65535 := by
  unfold ParseUint
  by_cases hs : s = []
  · simp [hs]
  · simp only [hs, if_false, ne_eq, not_false_eq_true, true_and]
    have hb : ¬ ¬ (2 ≤ 10 ∧ 10 ≤ 36) := by omega
    have hbits : ¬ (16 > 64) := by omega
    simp only [hb, hbits, if_false]
    exact parseLoop_ok_iff s 0 m (by omega)

theorem ParseUint_ok_of_text (s : Bytes) (h : IsUint16Text s) :
    ParseUint s 10 16 = .ok (decVal s) :=
  (ParseUint_ok_iff s _).mpr ⟨h.1, h.2.1, rfl, h.2.2⟩

theorem ParseUint_error_of_not_text (s : Bytes) (h : ¬ IsUint16Text s) :
    ∃ e, ParseUint s 10 16 = .error e := by
  cases hp : ParseUint s 10 16 with
  | error e => exact ⟨e, rfl⟩
  | ok m =>
    exfalso
    obtain ⟨h1, h2, h3, h4⟩ := (ParseUint_ok_iff s m).mp hp
    exact h ⟨h1, h2, by omega⟩

theorem ParseUint_fmtUint (u : Nat) (h : u ≤ 65535) :
    ParseUint (fmtUint u) 10 16 = .ok u :=
  (ParseUint_ok_iff _ _).mpr ⟨fmtUint_ne_nil u, fmtUint_allDigits u, decVal_fmtUint u, h⟩

/-! ### Splitting -/

theorem Split_ne_nil (sep : Nat) (s : Bytes) : Split sep s ≠ [] := by
  cases s with
  | nil => simp [Split]
  | cons c cs =>
    unfold Split
    split
    · simp
    · split <;> simp

theorem length_Split (sep : Nat) (s : Bytes) :
    (Split sep s).length = s.count sep + 1 := by
  induction s with
  | nil => simp [Split]
  | cons c cs ih =>
    unfold Split
    by_cases h : c = sep
    · subst h
      simp [ih]
    · have hne : (c == sep) = false := by simpa using h
      simp only [h, if_false]
      rw [List.count_cons, hne]
      cases hs : Split sep cs with
      | nil => exact absurd hs (Split_ne_nil sep cs)
      | cons seg rest =>
        rw [hs] at ih
        simp at ih ⊢
        omega

theorem Split_of_not_mem (sep : Nat) (s : Bytes) (h : sep ∉ s) : Split sep s = [s] := by
  induction s with
  | nil => rfl
  | cons c cs ih =>
    have hc : ¬ c = sep := fun e => h (by simp [e])
    have hcs : sep ∉ cs := fun e => h (by simp [e])
    unfold Split
    simp only [hc, if_false, ih hcs]

theorem Split_cons_of_ne (sep c : Nat) (cs : Bytes) (h : ¬ c = sep) :
    Split sep (c :: cs) =
      match Split sep cs with
      | seg :: rest => (c :: seg) :: rest
      | [] => [[c]] := by
  rw [Split]
  simp only [h, if_false]

theorem Split_append_sep (sep : Nat) (a rest : Bytes) (h : sep ∉ a) :
    Split sep (a ++ sep :: rest) = a :: Split sep rest := by
  induction a with
  | nil => simp [Split]
  | cons c cs ih =>
    have hc : ¬ c = sep := fun e => h (by simp [e])
    have hcs : sep ∉ cs := fun e => h (by simp [e])
    rw [List.cons_append, Split_cons_of_ne sep c _ hc, ih hcs]

/-- No segment of a split contains the separator. -/
theorem Split_not_mem (sep : Nat) (s : Bytes) : ∀ seg ∈ Split sep s, sep ∉ seg := by
  induction s with
  | nil => intro seg h; simp [Split] at h; subst h; simp
  | cons c cs ih =>
    intro seg h
    by_cases hc : c = sep
    · rw [Split] at h
      simp only [hc, if_true, List.mem_cons] at h
      rcases h with h | h
      · subst h; simp
      · exact ih seg h
    · rw [Split_cons_of_ne sep c cs hc] at h
      cases hs : Split sep cs with
      | nil => exact absurd hs (Split_ne_nil sep cs)
      | cons a rest =>
        rw [hs] at h ih
        simp only [List.mem_cons] at h
        rcases h with h | h
        · subst h
          intro hm
          rcases List.mem_cons.mp hm with e | e
          · exact hc e.symm
          · exact ih a (by simp) e
        · exact ih seg (by simp [h])

/-- Joining the segments of a split with the separator gives the string back. -/
theorem Split_intercalate (sep : Nat) (s : Bytes) :
    List.intercalate [sep] (Split sep s) = s := by
  induction s with
  | nil => rfl
  | cons c cs ih =>
    by_cases hc : c = sep
    · rw [Split]
      simp only [hc, if_true]
      cases hs : Split sep cs with
      | nil => exact absurd hs (Split_ne_nil sep cs)
      | cons a rest =>
        rw [hs] at ih
        rw [← ih]
        simp [List.intercalate, List.intersperse]
    · rw [Split_cons_of_ne sep c cs hc]
      cases hs : Split sep cs with
      | nil => exact absurd hs (Split_ne_nil sep cs)
      | cons a rest =>
        rw [hs] at ih
        rw [← ih]
        cases rest with
        | nil => simp [List.intercalate, List.intersperse]
        | cons b bs => simp [List.intercalate, List.intersperse]

/-! ### Ending in a digit -/

theorem endsInDigit_nil : endsInDigit [] = false := rfl

theorem endsInDigit_singleton (c : Nat) : endsInDigit [c] = isDigit c := rfl

theorem endsInDigit_cons_of_ne_nil (c : Nat) (cs : Bytes) (h : cs ≠ []) :
    endsInDigit (c :: cs) = endsInDigit cs := by
  cases cs with
  | nil => exact absurd rfl h
  | cons a as => simp [endsInDigit]

theorem endsInDigit_append_of_ne_nil (p d : Bytes) (h : d ≠ []) :
    endsInDigit (p ++ d) = endsInDigit d := by
  induction p with
  | nil => rfl
  | cons c cs ih =>
    rw [List.cons_append, endsInDigit_cons_of_ne_nil _ _ (by simp [h]), ih]

theorem endsInDigit_of_allDigits (d : Bytes) (hne : d ≠ []) (h : allDigits d = true) :
    endsInDigit d = true := by
  induction d with
  | nil => exact absurd rfl hne
  | cons c cs ih =>
    rw [allDigits_cons, Bool.and_eq_true] at h
    cases cs with
    | nil => rw [endsInDigit_singleton]; exact h.1
    | cons a as =>
      rw [endsInDigit_cons_of_ne_nil _ _ (by simp)]
      exact ih (by simp) h.2

/-! ### The pattern of the first segment -/

theorem firstSegMatchHere_iff (s : Bytes) :
    firstSegMatchHere s = true ↔ 1 ≤ s.length ∧ s.length ≤ 4 ∧ allDigits s = true := by
  simp [firstSegMatchHere, allDigits, and_assoc]

theorem FindString_of_match (d : Bytes) (h : firstSegMatchHere d = true) :
    FindString d = d := by
  cases d with
  | nil => rfl
  | cons c cs => rw [FindString]; simp only [h, if_true]

/-- What `FindString` returns: nothing when the string does not end in a
digit; otherwise a suffix of one to four digits that is cut either at four
digits or where the text before it stops ending in a digit. -/
theorem FindString_spec (s : Bytes) :
    (FindString s = [] ∧ endsInDigit s = false) ∨
    (firstSegMatchHere (FindString s) = true ∧
      ∃ p, s = p ++ FindString s ∧
        ((FindString s).length = 4 ∨ endsInDigit p = false)) := by
  induction s with
  | nil => left; exact ⟨rfl, rfl⟩
  | cons c cs ih =>
    by_cases hm : firstSegMatchHere (c :: cs) = true
    · right
      have hf : FindString (c :: cs) = c :: cs := FindString_of_match _ hm
      rw [hf]
      exact ⟨hm, [], rfl, Or.inr rfl⟩
    · have hf : FindString (c :: cs) = FindString cs := by
        rw [FindString]; simp only [hm]; rfl
      rw [hf]
      rcases ih with ⟨h0, he⟩ | ⟨hmd, p, hp, hcut⟩
      · left
        refine ⟨h0, ?_⟩
        cases cs with
        | nil =>
          rw [endsInDigit_singleton]
          cases hd : isDigit c
          · rfl
          · exfalso; apply hm
            rw [firstSegMatchHere_iff]
            refine ⟨by simp, by simp, ?_⟩
            rw [allDigits_cons, hd]; rfl
        | cons a as => rw [endsInDigit_cons_of_ne_nil _ _ (by simp)]; exact he
      · right
        refine ⟨hmd, c :: p, by rw [List.cons_append, ← hp], ?_⟩
        rcases hcut with h4 | hnd
        · exact Or.inl h4
        · by_cases h4 : (FindString cs).length = 4
          · exact Or.inl h4
          · right
            cases p with
            | cons a as => rw [endsInDigit_cons_of_ne_nil _ _ (by simp)]; exact hnd
            | nil =>
              rw [endsInDigit_singleton]
              cases hd : isDigit c
              · rfl
              · exfalso; apply hm
                rw [List.nil_append] at hp
                rw [firstSegMatchHere_iff] at hmd ⊢
                rw [← hp] at hmd h4
                refine ⟨by simp, by simp; omega, ?_⟩
                rw [allDigits_cons, hd, hmd.2.2]; rfl

theorem FindString_append (p d : Bytes) (hd : firstSegMatchHere d = true)
    (hcut : d.length = 4 ∨ endsInDigit p = false) : FindString (p ++ d) = d := by
  induction p with
  | nil => exact FindString_of_match d hd
  | cons c cs ih =>
    have hdm := (firstSegMatchHere_iff d).mp hd
    have hdne : d ≠ [] := by
      intro h; rw [h] at hdm; simp at hdm
    have hm : ¬ firstSegMatchHere (c :: cs ++ d) = true := by
      rw [firstSegMatchHere_iff]
      rintro ⟨_, hlen, hall⟩
      rcases hcut with h4 | hnd
      · simp at hlen; omega
      · rw [allDigits_append, Bool.and_eq_true] at hall
        have := endsInDigit_of_allDigits (c :: cs) (by simp) hall.1
        rw [hnd] at this
        cases this
    have hf : FindString (c :: cs ++ d) = FindString (cs ++ d) := by
      rw [List.cons_append, FindString]; rw [List.cons_append] at hm; simp only [hm]; rfl
    rw [hf]
    apply ih
    rcases hcut with h4 | hnd
    · exact Or.inl h4
    · right
      cases cs with
      | nil => rfl
      | cons a as => rw [endsInDigit_cons_of_ne_nil _ _ (by simp)] at hnd; exact hnd

theorem FindString_eq_nil_iff (s : Bytes) : FindString s = [] ↔ endsInDigit s = false := by
  rcases FindString_spec s with ⟨h0, he⟩ | ⟨hm, p, hp, _⟩
  · simp [h0, he]
  · have hdm := (firstSegMatchHere_iff _).mp hm
    have hne : FindString s ≠ [] := by
      intro h; rw [h] at hdm; simp at hdm
    have : endsInDigit s = true := by
      rw [hp, endsInDigit_append_of_ne_nil _ _ hne]
      exact endsInDigit_of_allDigits _ hne hdm.2.2
    simp [hne, this]

theorem FindString_take (s : Bytes) :
    s.take (s.length - (FindString s).length) ++ FindString s = s ∧
      (FindString s).length ≤ s.length := by
  rcases FindString_spec s with ⟨h0, _⟩ | ⟨_, p, hp, _⟩
  · rw [h0]; simp
  · generalize FindString s = d at hp ⊢
    subst hp
    refine ⟨?_, by simp⟩
    have : (p ++ d).length - d.length = p.length := by simp
    rw [this, List.take_left]

/-! ## Lemmas on the parser -/

/-- The prefix the parser stores for a first segment: the segment without the
digits the pattern matched. -/
theorem prefix_write (v : Version) (seg0 : Bytes) :
    (if ((seg0.length : Int) - ((FindString seg0).length : Int)) > 0 then
        (slice seg0 0 ((seg0.length : Int) - ((FindString seg0).length : Int))).map
          fun p => { v with pfx := p }
      else some { v with pfx := [] }) =
    some { v with pfx := seg0.take (seg0.length - (FindString seg0).length) } := by
  have hle := (FindString_take seg0).2
  split
  · rename_i hpos
    have hs : slice seg0 0 ((seg0.length : Int) - ((FindString seg0).length : Int)) =
        some (seg0.take (seg0.length - (FindString seg0).length)) := by
      unfold slice
      have hc : (0 : Int) ≤ 0 ∧ (0 : Int) ≤ (seg0.length : Int) - ((FindString seg0).length : Int) ∧
          (seg0.length : Int) - ((FindString seg0).length : Int) ≤ (seg0.length : Int) := by
        omega
      rw [if_pos hc]
      have ht : ((seg0.length : Int) - ((FindString seg0).length : Int)).toNat =
          seg0.length - (FindString seg0).length := by omega
      rw [ht]
      simp
    rw [hs]
    rfl
  · rename_i hpos
    have : seg0.length - (FindString seg0).length = 0 := by omega
    rw [this]
    simp

theorem UnmarshalText_short (v : Version) (b : Bytes) (h : (Split 46 b).length < 3) :
    v.UnmarshalText b = some (v, some .notThreeSegments) := by
  unfold Version.UnmarshalText
  simp only [h, if_true]

/-- The parser on an input with at least three segments, written out. -/
theorem UnmarshalText_segs (v : Version) (b seg0 seg1 seg2 : Bytes) (rest : List Bytes)
    (h : Split 46 b = seg0 :: seg1 :: seg2 :: rest) :
    v.UnmarshalText b =
      match ParseUint (FindString seg0) 10 16 with
      | .error e =>
        some (⟨seg0.take (seg0.length - (FindString seg0).length),
          v.major, v.minor, v.patch⟩, some e)
      | .ok u =>
        match ParseUint seg1 10 16 with
        | .error e =>
          some (⟨seg0.take (seg0.length - (FindString seg0).length),
            u % 65536, v.minor, v.patch⟩, some e)
        | .ok u1 =>
          match ParseUint seg2 10 16 with
          | .error e =>
            some (⟨seg0.take (seg0.length - (FindString seg0).length),
              u % 65536, u1 % 65536, v.patch⟩, some e)
          | .ok u2 =>
            some (⟨seg0.take (seg0.length - (FindString seg0).length),
              u % 65536, u1 % 65536, u2 % 65536⟩, none) := by
  unfold Version.UnmarshalText
  have hlen : ¬ (Split 46 b).length < 3 := by rw [h]; simp
  simp only [hlen, if_false, h, index, List.get?, Option.some_bind]
  rw [prefix_write v seg0]
  simp only [Option.some_bind]
  cases ParseUint (FindString seg0) 10 16 with
  | error e => rfl
  | ok u =>
    simp only []
    cases ParseUint seg1 10 16 with
    | error e => rfl
    | ok u1 =>
      simp only []
      cases ParseUint seg2 10 16 with
      | error e => rfl
      | ok u2 => rfl

/-- An input with at least three segments, by its split. -/
theorem Split_three (b : Bytes) (h : ¬ (Split 46 b).length < 3) :
    ∃ seg0 seg1 seg2 rest, Split 46 b = seg0 :: seg1 :: seg2 :: rest := by
  match hs : Split 46 b with
  | [] => rw [hs] at h; simp at h
  | [_] => rw [hs] at h; simp at h
  | [_, _] => rw [hs] at h; simp at h
  | seg0 :: seg1 :: seg2 :: rest => exact ⟨seg0, seg1, seg2, rest, rfl⟩

theorem FindString_longest (p d : Bytes) (hd : firstSegMatchHere d = true) :
    d.length ≤ (FindString (p ++ d)).length := by
  induction p with
  | nil => rw [List.nil_append, FindString_of_match d hd]
  | cons c cs ih =>
    rw [List.cons_append, FindString]
    split
    · simp only [List.length_cons, List.length_append]; omega
    · exact ih

theorem String_split (v : Version) (hdot : 46 ∉ v.pfx) :
    Split 46 v.String =
      [v.pfx ++ fmtUint v.major, fmtUint v.minor, fmtUint v.patch] := by
  have h0 : 46 ∉ v.pfx ++ fmtUint v.major := by
    intro h
    rcases List.mem_append.mp h with h | h
    · exact hdot h
    · exact fmtUint_not_mem_dot _ h
  have hs : v.String =
      (v.pfx ++ fmtUint v.major) ++ 46 :: (fmtUint v.minor ++ 46 :: fmtUint v.patch) := by
    simp [Version.String]
  rw [hs, Split_append_sep 46 _ _ h0, Split_append_sep 46 _ _ (fmtUint_not_mem_dot _),
    Split_of_not_mem 46 _ (fmtUint_not_mem_dot _)]

theorem fmtUint_match (u : Nat) (h : u ≤ 9999) : firstSegMatchHere (fmtUint u) = true := by
  rw [firstSegMatchHere_iff]
  refine ⟨?_, fmtUint_length_le_four u h, fmtUint_allDigits u⟩
  have := fmtUint_ne_nil u
  cases hl : fmtUint u with
  | nil => exact absurd hl this
  | cons a as => simp

/-- Parsing the text of a version gives the version back, under the
conditions that make the text unambiguous. -/
theorem UnmarshalText_String (r v : Version) (hM : v.major ≤ 9999) (hm : v.minor ≤ 65535)
    (hp : v.patch ≤ 65535) (hdot : 46 ∉ v.pfx) (hend : endsInDigit v.pfx = false) :
    r.UnmarshalText v.String = some (v, none) := by
  rw [UnmarshalText_segs r _ _ _ _ [] (String_split v hdot)]
  have hF : FindString (v.pfx ++ fmtUint v.major) = fmtUint v.major :=
    FindString_append _ _ (fmtUint_match _ hM) (Or.inr hend)
  rw [hF, ParseUint_fmtUint _ (by omega), ParseUint_fmtUint _ hm, ParseUint_fmtUint _ hp]
  have ht : (v.pfx ++ fmtUint v.major).length - (fmtUint v.major).length = v.pfx.length := by
    simp
  simp only [ht, List.take_left]
  rw [Nat.mod_eq_of_lt (by omega : v.major < 65536), Nat.mod_eq_of_lt (by omega : v.minor < 65536),
    Nat.mod_eq_of_lt (by omega : v.patch < 65536)]

theorem decValFrom_lt (s : Bytes) : ∀ n, allDigits s = true →
    decValFrom n s + 1 ≤ (n + 1) * 10 ^ s.length := by
  induction s with
  | nil => intro n _; simp [decValFrom_nil]
  | cons c cs ih =>
    intro n h
    rw [allDigits_cons, Bool.and_eq_true] at h
    have hc := (isDigit_iff c).mp h.1
    have h1 := ih (10 * n + (c - 48)) h.2
    rw [decValFrom_cons, List.length_cons, pow_succ]
    have h2 : (10 * n + (c - 48) + 1) * 10 ^ cs.length ≤ (10 * n + 10) * 10 ^ cs.length :=
      Nat.mul_le_mul_right _ (by omega)
    have h3 : (10 * n + 10) * 10 ^ cs.length = (n + 1) * (10 ^ cs.length * 10) := by ring
    omega

theorem match_isUint16Text (d : Bytes) (h : firstSegMatchHere d = true) : IsUint16Text d := by
  obtain ⟨h1, h4, hall⟩ := (firstSegMatchHere_iff d).mp h
  refine ⟨by intro e; rw [e] at h1; simp at h1, hall, ?_⟩
  have hlt := decValFrom_lt d 0 hall
  have hpow : 10 ^ d.length ≤ 10 ^ 4 := Nat.pow_le_pow_right (by omega) h4
  unfold decVal
  norm_num at hpow hlt
  omega

/-- The digits the pattern finds parse as a number exactly when the segment
ends in a digit. -/
theorem FindString_isUint16Text_iff (seg0 : Bytes) :
    IsUint16Text (FindString seg0) ↔ endsInDigit seg0 = true := by
  constructor
  · intro h
    cases he : endsInDigit seg0
    · exact absurd ((FindString_eq_nil_iff seg0).mpr he) h.1
    · rfl
  · intro h
    rcases FindString_spec seg0 with ⟨_, he⟩ | ⟨hm, _⟩
    · rw [h] at he; cases he
    · exact match_isUint16Text _ hm

/-- The four ways the parser ends on an input with at least three segments,
and its state at each: the fields are written in the order prefix, major,
minor, patch, up to the first number that does not parse. -/
theorem UnmarshalText_outcome (v : Version) (b seg0 seg1 seg2 : Bytes) (rest : List Bytes)
    (h : Split 46 b = seg0 :: seg1 :: seg2 :: rest) :
    (¬ IsUint16Text (FindString seg0) ∧ ∃ e, v.UnmarshalText b =
      some (⟨seg0.take (seg0.length - (FindString seg0).length),
        v.major, v.minor, v.patch⟩, some e)) ∨
    (IsUint16Text (FindString seg0) ∧ ¬ IsUint16Text seg1 ∧ ∃ e, v.UnmarshalText b =
      some (⟨seg0.take (seg0.length - (FindString seg0).length),
        decVal (FindString seg0), v.minor, v.patch⟩, some e)) ∨
    (IsUint16Text (FindString seg0) ∧ IsUint16Text seg1 ∧ ¬ IsUint16Text seg2 ∧
      ∃ e, v.UnmarshalText b =
        some (⟨seg0.take (seg0.length - (FindString seg0).length),
          decVal (FindString seg0), decVal seg1, v.patch⟩, some e)) ∨
    (IsUint16Text (FindString seg0) ∧ IsUint16Text seg1 ∧ IsUint16Text seg2 ∧
      v.UnmarshalText b =
        some (⟨seg0.take (seg0.length - (FindString seg0).length),
          decVal (FindString seg0), decVal seg1, decVal seg2⟩, none)) := by
  have hU := UnmarshalText_segs v b seg0 seg1 seg2 rest h
  by_cases h0 : IsUint16Text (FindString seg0)
  · have e0 := ParseUint_ok_of_text _ h0
    have m0 : decVal (FindString seg0) % 65536 = decVal (FindString seg0) :=
      Nat.mod_eq_of_lt (by have := h0.2.2; omega)
    by_cases h1 : IsUint16Text seg1
    · have e1 := ParseUint_ok_of_text _ h1
      have m1 : decVal seg1 % 65536 = decVal seg1 :=
        Nat.mod_eq_of_lt (by have := h1.2.2; omega)
      by_cases h2 : IsUint16Text seg2
      · have e2 := ParseUint_ok_of_text _ h2
        have m2 : decVal seg2 % 65536 = decVal seg2 :=
          Nat.mod_eq_of_lt (by have := h2.2.2; omega)
        simp only [e0, e1, e2, m0, m1, m2] at hU
        exact Or.inr (Or.inr (Or.inr ⟨h0, h1, h2, hU⟩))
      · obtain ⟨e, he⟩ := ParseUint_error_of_not_text _ h2
        simp only [e0, e1, he, m0, m1] at hU
        exact Or.inr (Or.inr (Or.inl ⟨h0, h1, h2, e, hU⟩))
    · obtain ⟨e, he⟩ := ParseUint_error_of_not_text _ h1
      simp only [e0, he, m0] at hU
      exact Or.inr (Or.inl ⟨h0, h1, e, hU⟩)
  · obtain ⟨e, he⟩ := ParseUint_error_of_not_text _ h0
    simp only [he] at hU
    exact Or.inl ⟨h0, e, hU⟩

/-! ## Text round trip (C1) -/

/-- C1, as stated, fails: a version with an empty prefix and major 10000 is
formatted as `10000.0.0` and parsed back as prefix `1`, major 0; a version with
prefix `a.b` is formatted as `a.b1.2.3`, whose first segment `a` has no digits,
and parsing fails after overwriting the prefix. Neither prefix ends in a
digit and all fields are in range. -/
theorem text_round_trip_fails :
    ((Version.mk [] 10000 0 0).InRange ∧ endsInDigit (Version.mk [] 10000 0 0).pfx = false ∧
      (Version.mk [] 10000 0 0).Bytes = ascii "10000.0.0" ∧
      Version.zero.UnmarshalText (Version.mk [] 10000 0 0).Bytes =
        some (Version.mk (ascii "1") 0 0 0, none) ∧
      Version.mk (ascii "1") 0 0 0 ≠ Version.mk [] 10000 0 0) ∧
    ((Version.mk (ascii "a.b") 1 2 3).InRange ∧
      endsInDigit (Version.mk (ascii "a.b") 1 2 3).pfx = false ∧
      (Version.mk (ascii "a.b") 1 2 3).Bytes = ascii "a.b1.2.3" ∧
      Version.zero.UnmarshalText (Version.mk (ascii "a.b") 1 2 3).Bytes =
        some (Version.mk (ascii "a") 0 0 0, some Error.numSyntax)) := by
  decide

/-- C1, amended: for every version whose major is at most 9999, whose minor
and patch are at most 65535, and whose prefix contains no `.` and does not end
in a decimal digit, `UnmarshalText` applied to `v.Bytes()` succeeds from any
receiver state and leaves the receiver field-wise equal to `v`. -/
theorem text_round_trip (r v : Version) (hM : v.major ≤ 9999) (hm : v.minor ≤ 65535)
    (hp : v.patch ≤ 65535) (hdot : 46 ∉ v.pfx) (hend : endsInDigit v.pfx = false) :
    r.UnmarshalText v.Bytes = some (v, none) :=
  UnmarshalText_String r v hM hm hp hdot hend

/-- The round trip of `build-9999.65535.0` into a receiver holding `old7.7.7`. -/
theorem text_round_trip_witness :
    (Version.mk (ascii "build-") 9999 65535 0).Bytes = ascii "build-9999.65535.0" ∧
    (Version.mk (ascii "old") 7 7 7).UnmarshalText (Version.mk (ascii "build-") 9999 65535 0).Bytes =
      some (Version.mk (ascii "build-") 9999 65535 0, none) :=
  ⟨by decide,
   text_round_trip (Version.mk (ascii "old") 7 7 7) (Version.mk (ascii "build-") 9999 65535 0)
      (by decide) (by decide) (by decide) (by decide) (by decide)⟩

/-! ## The result of a successful parse (C2) -/

/-- C2: for every input that `UnmarshalText` accepts, with the segments of the
input split on `.`, the first segment is the resulting prefix followed by `d`,
the longest suffix of one to four decimal digits (all digits, length 1 to 4,
and of length 4, or after an empty prefix, or after a prefix whose last
character is not a digit), major is the base-10 value of `d`, minor that of
the second segment and patch that of the third. -/
theorem parse_result (v r : Version) (b : Bytes)
    (h : v.UnmarshalText b = some (r, none)) : ParsedFrom b r := by
  by_cases hlen : (Split 46 b).length < 3
  · rw [UnmarshalText_short v b hlen] at h
    cases h
  · obtain ⟨seg0, seg1, seg2, rest, hs⟩ := Split_three b hlen
    rcases UnmarshalText_outcome v b seg0 seg1 seg2 rest hs with
      ⟨_, e, he⟩ | ⟨_, _, e, he⟩ | ⟨_, _, _, e, he⟩ | ⟨h0, h1, h2, hok⟩
    · rw [he] at h; cases h
    · rw [he] at h; cases h
    · rw [he] at h; cases h
    · rw [hok] at h
      cases h
      rcases FindString_spec seg0 with ⟨hnil, _⟩ | ⟨hm, p, hp, hcut⟩
      · exact absurd hnil h0.1
      · have hlong : ∀ q e, seg0 = q ++ e → allDigits e = true → 1 ≤ e.length →
            e.length ≤ 4 → e.length ≤ (FindString seg0).length := by
          intro q e hq ha h1e h4e
          have := FindString_longest q e ((firstSegMatchHere_iff e).mpr ⟨h1e, h4e, ha⟩)
          rw [← hq] at this
          exact this
        generalize FindString seg0 = d at hm hp hcut hlong h0
        subst hp
        obtain ⟨hd1, hd4, hall⟩ := (firstSegMatchHere_iff d).mp hm
        have ht : (p ++ d).length - d.length = p.length := by simp
        refine ⟨p ++ d, seg1, seg2, rest, d, hs, ?_, hall, hd1, hd4, ?_, hlong, rfl, rfl, rfl⟩
        · simp only [ht, List.take_left]
        · simp only [ht, List.take_left]
          rcases hcut with h4 | hnd
          · exact Or.inl h4
          · right
            cases hl : p.getLast? with
            | none => left; simpa using hl
            | some c =>
              right
              refine ⟨c, rfl, ?_⟩
              unfold endsInDigit at hnd
              rw [hl] at hnd
              exact hnd

/-- The three examples of the specification: `v10.20.300`, `1.2.3` and `build-42.1.0`. -/
theorem parse_result_witness :
    (Version.zero.UnmarshalText (ascii "v10.20.300") =
        some (Version.mk (ascii "v") 10 20 300, none) ∧
      ParsedFrom (ascii "v10.20.300") (Version.mk (ascii "v") 10 20 300)) ∧
    Version.zero.UnmarshalText (ascii "1.2.3") = some (Version.mk [] 1 2 3, none) ∧
    Version.zero.UnmarshalText (ascii "build-42.1.0") =
      some (Version.mk (ascii "build-") 42 1 0, none) :=
  ⟨⟨by decide,
    parse_result Version.zero (Version.mk (ascii "v") 10 20 300) (ascii "v10.20.300")
      (by decide)⟩,
   by decide, by decide⟩

/-! ## The acceptance condition (C3) -/

theorem TextAccepted_iff_segs (b seg0 seg1 seg2 : Bytes) (rest : List Bytes)
    (hs : Split 46 b = seg0 :: seg1 :: seg2 :: rest) :
    TextAccepted b ↔
      endsInDigit seg0 = true ∧ IsUint16Text seg1 ∧ IsUint16Text seg2 := by
  unfold TextAccepted
  rw [hs]
  simp

/-- C3: `UnmarshalText` returns no error if and only if the input split on `.`
has at least three segments, the first segment ends with a decimal digit, and
the second and third segments are each a non-empty string of decimal digits
of base-10 value at most 65535; in every other case it returns an error. -/
theorem accept_iff (v : Version) (b : Bytes) :
    ((∃ r, v.UnmarshalText b = some (r, none)) ↔ TextAccepted b) ∧
    (¬ TextAccepted b → ∃ r e, v.UnmarshalText b = some (r, some e)) := by
  by_cases hlen : (Split 46 b).length < 3
  · have hna : ¬ TextAccepted b := fun h => by
      have := h.1
      omega
    have hU := UnmarshalText_short v b hlen
    refine ⟨⟨?_, fun h => absurd h hna⟩, fun _ => ⟨v, _, hU⟩⟩
    rintro ⟨r, hr⟩
    rw [hU] at hr
    cases hr
  · obtain ⟨seg0, seg1, seg2, rest, hs⟩ := Split_three b hlen
    rw [TextAccepted_iff_segs b seg0 seg1 seg2 rest hs, ← FindString_isUint16Text_iff]
    rcases UnmarshalText_outcome v b seg0 seg1 seg2 rest hs with
      ⟨hn, e, he⟩ | ⟨_, hn, e, he⟩ | ⟨_, _, hn, e, he⟩ | ⟨h0, h1, h2, hok⟩
    · refine ⟨⟨?_, fun h => absurd h.1 hn⟩, fun _ => ⟨_, e, he⟩⟩
      rintro ⟨r, hr⟩
      rw [he] at hr
      cases hr
    · refine ⟨⟨?_, fun h => absurd h.2.1 hn⟩, fun _ => ⟨_, e, he⟩⟩
      rintro ⟨r, hr⟩
      rw [he] at hr
      cases hr
    · refine ⟨⟨?_, fun h => absurd h.2.2 hn⟩, fun _ => ⟨_, e, he⟩⟩
      rintro ⟨r, hr⟩
      rw [he] at hr
      cases hr
    · exact ⟨⟨fun _ => ⟨h0, h1, h2⟩, fun _ => ⟨_, hok⟩⟩, fun hn => absurd ⟨h0, h1, h2⟩ hn⟩

/-- The input `a.b.c` is rejected; `v1.002.65535`, with leading zeros, is accepted. -/
theorem accept_iff_witness :
    (¬ TextAccepted (ascii "a.b.c") ∧
      ∃ r e, Version.zero.UnmarshalText (ascii "a.b.c") = some (r, some e)) ∧
    (TextAccepted (ascii "v1.002.65535") ∧
      ∃ r, Version.zero.UnmarshalText (ascii "v1.002.65535") = some (r, none)) :=
  ⟨⟨by decide, (accept_iff Version.zero (ascii "a.b.c")).2 (by decide)⟩,
   ⟨by decide, (accept_iff Version.zero (ascii "v1.002.65535")).1.mpr (by decide)⟩⟩

/-! ## The receiver after a failed parse (C4) -/

/-- The interior of a JSON input of at least three bytes: the slice
`b[1 : len(b)-1]` does not panic and is `b` without its first and last byte. -/
theorem slice_interior (b : Bytes) (h : 3 ≤ b.length) :
    slice b 1 ((b.length : Int) - 1) = some b.tail.dropLast := by
  unfold slice
  have hc : (0 : Int) ≤ 1 ∧ (1 : Int) ≤ (b.length : Int) - 1 ∧
      (b.length : Int) - 1 ≤ (b.length : Int) := by omega
  rw [if_pos hc]
  have ht : ((b.length : Int) - 1).toNat = b.length - 1 := by omega
  have h1 : (1 : Int).toNat = 1 := rfl
  rw [ht, h1]
  congr 1
  cases b with
  | nil => simp at h
  | cons x xs =>
    simp only [List.length_cons, Nat.add_sub_cancel, List.tail_cons, List.drop_one]
    rw [List.dropLast_eq_take]
    cases xs with
    | nil => simp at h
    | cons y ys => simp

theorem UnmarshalJSON_short (v : Version) (b : Bytes) (h : b.length < 3) :
    v.UnmarshalJSON b = some (v, some .jsonTooShort) := by
  unfold Version.UnmarshalJSON Version.UnmarshalJSONWith
  have : ((b.length : Int) < 3) := by omega
  simp only [this, if_true]

theorem UnmarshalJSON_long (v : Version) (b : Bytes) (h : 3 ≤ b.length) :
    v.UnmarshalJSON b = v.UnmarshalText b.tail.dropLast := by
  unfold Version.UnmarshalJSON Version.UnmarshalJSONWith
  have : ¬ ((b.length : Int) < 3) := by omega
  simp only [this, if_false, slice_interior b h, Option.some_bind]

/-- C4, as stated, fails: from the receiver `w1.2.3` the input `v9.8.x` is
rejected (the third segment is not a number) after prefix, major and minor
have been overwritten, and patch keeps the old value 3, for `UnmarshalText` and
for `UnmarshalJSON` on the quoted input alike. The receiver afterwards is
neither its old state nor a state determined by the input: from a receiver
with patch 77 the same input leaves patch 77. -/
theorem failed_parse_half_written :
    (Version.mk (ascii "w") 1 2 3).UnmarshalText (ascii "v9.8.x") =
      some (Version.mk (ascii "v") 9 8 3, some Error.numSyntax) ∧
    (Version.mk (ascii "w") 1 2 3).UnmarshalJSON (34 :: (ascii "v9.8.x" ++ [34])) =
      some (Version.mk (ascii "v") 9 8 3, some Error.numSyntax) ∧
    (Version.mk (ascii "w") 1 2 77).UnmarshalText (ascii "v9.8.x") =
      some (Version.mk (ascii "v") 9 8 77, some Error.numSyntax) ∧
    Version.mk (ascii "v") 9 8 3 ≠ Version.mk (ascii "w") 1 2 3 ∧
    Version.mk (ascii "v") 9 8 3 ≠ Version.mk (ascii "v") 9 8 77 := by
  decide

/-- C4, amended: when `UnmarshalText` returns an error the receiver is left as
`FailedWrite` describes: unchanged if the input has fewer than three segments,
otherwise written in the order prefix, major, minor up to the first number
that does not parse, with patch never overwritten. When `UnmarshalJSON`
returns an error the receiver is unchanged if the input is shorter than three
bytes, and otherwise left as the text parse of the interior bytes leaves it. -/
theorem failed_parse_state (v r : Version) (b : Bytes) (e : Error) :
    (v.UnmarshalText b = some (r, some e) → FailedWrite v b r) ∧
    (v.UnmarshalJSON b = some (r, some e) →
      (b.length < 3 ∧ r = v) ∨ (3 ≤ b.length ∧ FailedWrite v b.tail.dropLast r)) := by
  have key : ∀ c : Bytes, v.UnmarshalText c = some (r, some e) → FailedWrite v c r := by
    intro c h
    by_cases hlen : (Split 46 c).length < 3
    · rw [UnmarshalText_short v c hlen] at h
      cases h
      exact Or.inl ⟨hlen, rfl⟩
    · obtain ⟨seg0, seg1, seg2, rest, hs⟩ := Split_three c hlen
      right
      refine ⟨seg0, seg1, seg2, rest, hs, ?_⟩
      rcases UnmarshalText_outcome v c seg0 seg1 seg2 rest hs with
        ⟨hn, e1, he⟩ | ⟨h0, hn, e1, he⟩ | ⟨h0, h1, hn, e1, he⟩ | ⟨_, _, _, hok⟩
      · rw [he] at h
        cases h
        refine ⟨rfl, rfl, Or.inl ⟨?_, rfl, rfl⟩⟩
        cases hd : endsInDigit seg0
        · rfl
        · exact absurd ((FindString_isUint16Text_iff seg0).mpr hd) hn
      · rw [he] at h
        cases h
        exact ⟨rfl, rfl, Or.inr ⟨(FindString_isUint16Text_iff seg0).mp h0, rfl,
          Or.inl ⟨hn, rfl⟩⟩⟩
      · rw [he] at h
        cases h
        exact ⟨rfl, rfl, Or.inr ⟨(FindString_isUint16Text_iff seg0).mp h0, rfl,
          Or.inr ⟨h1, hn, rfl⟩⟩⟩
      · rw [hok] at h
        cases h
  refine ⟨key b, ?_⟩
  intro h
  by_cases hl : b.length < 3
  · rw [UnmarshalJSON_short v b hl] at h
    cases h
    exact Or.inl ⟨hl, rfl⟩
  · have h3 : 3 ≤ b.length := by omega
    rw [UnmarshalJSON_long v b h3] at h
    exact Or.inr ⟨h3, key _ h⟩

/-- The states left by the rejected inputs `v9.8.x` and `1.2`. -/
theorem failed_parse_state_witness :
    FailedWrite (Version.mk (ascii "w") 1 2 3) (ascii "v9.8.x") (Version.mk (ascii "v") 9 8 3) ∧
    FailedWrite (Version.mk (ascii "w") 1 2 3) (ascii "1.2") (Version.mk (ascii "w") 1 2 3) :=
  ⟨(failed_parse_state (Version.mk (ascii "w") 1 2 3) (Version.mk (ascii "v") 9 8 3)
      (ascii "v9.8.x") Error.numSyntax).1 (by decide),
   (failed_parse_state (Version.mk (ascii "w") 1 2 3) (Version.mk (ascii "w") 1 2 3)
      (ascii "1.2") Error.notThreeSegments).1 (by decide)⟩

/-! ## JSON output (C5) -/

theorem appendEscapedRune_ascii (tab : Nat → Bool) (c : Nat) (h : c < 128) :
    appendEscapedRune tab c = escapeASCII c := by
  unfold appendEscapedRune escapeASCII
  by_cases hq : c = 34 ∨ c = 92
  · simp only [hq, if_true]
  · simp only [hq, if_false]
    by_cases hp : 0x20 ≤ c ∧ c ≤ 0x7E
    · have hprint : IsPrint tab c = true := by
        unfold IsPrint
        have : c ≤ 0xFF := by omega
        simp only [this, if_true, hp, and_self]
      have hA : AppendRune c = [c] := by
        unfold AppendRune
        simp only [show c < 0x80 from h, if_true]
      simp only [hprint, if_true, hp, and_self, hA]
    · have hprint : IsPrint tab c = false := by
        unfold IsPrint
        have h1 : c ≤ 0xFF := by omega
        have h2 : ¬ 0xA1 ≤ c := by omega
        simp only [h1, if_true, hp, if_false, h2]
      have hr : c < 32 ∨ c = 0x7F := by omega
      simp [hprint, hp, hr]

theorem escapeASCII_plain (c : Nat) (h : plainByte c = true) : escapeASCII c = [c] := by
  simp only [plainByte, Bool.and_eq_true, decide_eq_true_eq] at h
  unfold escapeASCII
  have hq : ¬ (c = 34 ∨ c = 92) := by omega
  have hp : 0x20 ≤ c ∧ c ≤ 0x7E := by omega
  simp only [hq, if_false, hp, and_self, if_true]

theorem quoteLoop_ascii (tab : Nat → Bool) (s : Bytes) (h : ∀ c ∈ s, c < 128) :
    quoteLoop tab 0 s = s.flatMap escapeASCII := by
  induction s with
  | nil => rfl
  | cons c cs ih =>
    have hc : c < 128 := h c (by simp)
    have hcs : ∀ x ∈ cs, x < 128 := fun x hx => h x (by simp [hx])
    rw [quoteLoop]
    have h1 : ¬ c ≥ 0x80 := by omega
    have h2 : ¬ c = RuneError := by
      unfold RuneError; omega
    simp only [h1, if_false, h2, and_false, Nat.sub_self, ih hcs,
      appendEscapedRune_ascii tab c hc, List.flatMap_cons]

theorem flatMap_escapeASCII_plain (s : Bytes) (h : ∀ c ∈ s, plainByte c = true) :
    s.flatMap escapeASCII = s := by
  induction s with
  | nil => rfl
  | cons c cs ih =>
    rw [List.flatMap_cons, escapeASCII_plain c (h c (by simp)),
      ih (fun x hx => h x (by simp [hx]))]
    rfl

theorem plainByte_of_isDigit (c : Nat) (h : isDigit c = true) : plainByte c = true := by
  have := (isDigit_iff c).mp h
  simp only [plainByte, Bool.and_eq_true, decide_eq_true_eq]
  omega

/-- The bytes of the text of a version satisfy what the bytes of its prefix,
the digits and the dot satisfy. -/
theorem String_forall (P : Nat → Prop) (v : Version) (hp : ∀ c ∈ v.pfx, P c)
    (hd : ∀ c, isDigit c = true → P c) (hdot : P 46) : ∀ c ∈ v.String, P c := by
  intro c hc
  have hdig : ∀ u, ∀ x ∈ fmtUint u, P x := fun u x hx =>
    hd x ((allDigits_iff _).mp (fmtUint_allDigits u) x hx)
  simp only [Version.String, List.mem_append, List.mem_singleton] at hc
  rcases hc with (((hc | hc) | hc) | hc) | hc
  · rcases hc with hc | hc
    · exact hp c hc
    · exact hdig _ c hc
  · rw [hc]; exact hdot
  · exact hdig _ c hc
  · rw [hc]; exact hdot
  · exact hdig _ c hc

theorem Quote_plain (tab : Nat → Bool) (v : Version) (h : ∀ c ∈ v.pfx, plainByte c = true) :
    Quote tab v.String = 34 :: (v.String ++ [34]) := by
  have hall : ∀ c ∈ v.String, plainByte c = true :=
    String_forall (fun c => plainByte c = true) v h plainByte_of_isDigit (by decide)
  have hlt : ∀ c ∈ v.String, c < 128 := by
    intro c hc
    have := hall c hc
    simp only [plainByte, Bool.and_eq_true, decide_eq_true_eq] at this
    omega
  unfold Quote
  rw [quoteLoop_ascii tab _ hlt, flatMap_escapeASCII_plain _ hall]

theorem MarshalJSON_ascii (tab : Nat → Bool) (v : Version) (h : ∀ c ∈ v.pfx, c < 128) :
    (Version.MarshalJSON tab v).1 = 34 :: (v.String.flatMap escapeASCII ++ [34]) := by
  have hlt : ∀ c ∈ v.String, c < 128 :=
    String_forall (fun c => c < 128) v h
      (fun c hc => by have := (isDigit_iff c).mp hc; omega) (by omega)
  show Quote tab v.String = _
  unfold Quote
  rw [quoteLoop_ascii tab _ hlt]

/-- C5, as stated, fails: `MarshalJSON` is `strconv.Quote`, which escapes. With
the prefix `"` the output is `"\"1.2.3"`, with the prefix `\` it is
`"\\1.2.3"`, and with a line feed as prefix it is `"\n1.2.3"`; none is the
text between two quotes. -/
theorem json_output_escapes :
    (∀ tab, Version.MarshalJSON tab (Version.mk [34] 1 2 3) =
      (34 :: ([92, 34] ++ ascii "1.2.3" ++ [34]), none)) ∧
    (∀ tab, Version.MarshalJSON tab (Version.mk [92] 1 2 3) =
      (34 :: ([92, 92] ++ ascii "1.2.3" ++ [34]), none)) ∧
    (∀ tab, Version.MarshalJSON tab (Version.mk [10] 1 2 3) =
      (34 :: ([92, 110] ++ ascii "1.2.3" ++ [34]), none)) ∧
    (34 :: ([92, 34] ++ ascii "1.2.3" ++ [34]) ≠
      34 :: ((Version.mk [34] 1 2 3).String ++ [34])) ∧
    (34 :: ([92, 92] ++ ascii "1.2.3" ++ [34]) ≠
      34 :: ((Version.mk [92] 1 2 3).String ++ [34])) ∧
    (34 :: ([92, 110] ++ ascii "1.2.3" ++ [34]) ≠
      34 :: ((Version.mk [10] 1 2 3).String ++ [34])) :=
  ⟨fun tab => Prod.ext ((MarshalJSON_ascii tab _ (by decide)).trans (by decide)) rfl,
   fun tab => Prod.ext ((MarshalJSON_ascii tab _ (by decide)).trans (by decide)) rfl,
   fun tab => Prod.ext ((MarshalJSON_ascii tab _ (by decide)).trans (by decide)) rfl,
   by decide, by decide, by decide⟩

/-- C5, amended: for every version, `MarshalJSON` returns no error and its
bytes are one double quote, a body and one double quote. When every byte of
the prefix is ASCII, the body is `v.String()` with each byte written as
`escapeASCII` says (a backslash added before a double quote or a backslash, a
control character as an escape sequence). When every byte of the prefix is a
printable ASCII character other than the double quote and the backslash, the
body is `v.String()` verbatim. -/
theorem json_output (tab : Nat → Bool) (v : Version) :
    (Version.MarshalJSON tab v).2 = none ∧
    (∃ body, (Version.MarshalJSON tab v).1 = 34 :: (body ++ [34])) ∧
    ((∀ c ∈ v.pfx, c < 128) →
      (Version.MarshalJSON tab v).1 = 34 :: (v.String.flatMap escapeASCII ++ [34])) ∧
    ((∀ c ∈ v.pfx, plainByte c = true) →
      (Version.MarshalJSON tab v).1 = 34 :: (v.String ++ [34])) := by
  refine ⟨rfl, ⟨quoteLoop tab 0 v.String, rfl⟩, ?_, ?_⟩
  · exact MarshalJSON_ascii tab v
  · intro h
    exact Quote_plain tab v h

/-- The version `v1.2.3` is written as its text between two double quotes. -/
theorem json_output_witness :
    (Version.MarshalJSON (fun _ => true) (Version.mk (ascii "v") 1 2 3)).1 =
      34 :: ((Version.mk (ascii "v") 1 2 3).String ++ [34]) ∧
    (Version.mk (ascii "v") 1 2 3).String = ascii "v1.2.3" :=
  ⟨(json_output (fun _ => true) (Version.mk (ascii "v") 1 2 3)).2.2.2 (by decide), by decide⟩

/-! ## JSON round trip (C6) -/

theorem String_length (v : Version) : 3 ≤ v.String.length := by
  have h1 := fmtUint_ne_nil v.major
  have h2 := fmtUint_ne_nil v.minor
  have h3 := fmtUint_ne_nil v.patch
  have l1 : 1 ≤ (fmtUint v.major).length := List.length_pos.mpr h1
  have l2 : 1 ≤ (fmtUint v.minor).length := List.length_pos.mpr h2
  have l3 : 1 ≤ (fmtUint v.patch).length := List.length_pos.mpr h3
  simp only [Version.String, List.length_append, List.length_singleton]
  omega

theorem UnmarshalJSON_wrapped (r : Version) (x y : Nat) (inner : Bytes)
    (h : 1 ≤ inner.length) :
    r.UnmarshalJSON (x :: (inner ++ [y])) = r.UnmarshalText inner := by
  rw [UnmarshalJSON_long r _ (by simp; omega)]
  simp

/-- C6, as stated, fails for prefixes without a double quote or a backslash:
major 10000 comes back as prefix `1`, major 0; the prefix `a.b` makes the
parse fail; the prefix `x1` with major 2 comes back as prefix `x`, major 12;
a line feed as prefix is written as the two bytes `\n` and comes back as
those two bytes. -/
theorem json_round_trip_fails :
    ((∀ tab, (Version.MarshalJSON tab (Version.mk [] 10000 0 0)).1 =
        34 :: (ascii "10000.0.0" ++ [34])) ∧
      Version.zero.UnmarshalJSON (34 :: (ascii "10000.0.0" ++ [34])) =
        some (Version.mk (ascii "1") 0 0 0, none) ∧
      Version.mk (ascii "1") 0 0 0 ≠ Version.mk [] 10000 0 0) ∧
    ((∀ tab, (Version.MarshalJSON tab (Version.mk (ascii "a.b") 1 2 3)).1 =
        34 :: (ascii "a.b1.2.3" ++ [34])) ∧
      Version.zero.UnmarshalJSON (34 :: (ascii "a.b1.2.3" ++ [34])) =
        some (Version.mk (ascii "a") 0 0 0, some Error.numSyntax)) ∧
    ((∀ tab, (Version.MarshalJSON tab (Version.mk (ascii "x1") 2 0 0)).1 =
        34 :: (ascii "x12.0.0" ++ [34])) ∧
      Version.zero.UnmarshalJSON (34 :: (ascii "x12.0.0" ++ [34])) =
        some (Version.mk (ascii "x") 12 0 0, none) ∧
      Version.mk (ascii "x") 12 0 0 ≠ Version.mk (ascii "x1") 2 0 0) ∧
    ((∀ tab, (Version.MarshalJSON tab (Version.mk [10] 1 2 3)).1 =
        34 :: ([92, 110] ++ ascii "1.2.3" ++ [34])) ∧
      Version.zero.UnmarshalJSON (34 :: ([92, 110] ++ ascii "1.2.3" ++ [34])) =
        some (Version.mk [92, 110] 1 2 3, none) ∧
      Version.mk [92, 110] 1 2 3 ≠ Version.mk [10] 1 2 3) ∧
    (∀ p ∈ [[], ascii "a.b", ascii "x1", [10]], 34 ∉ p ∧ 92 ∉ p) :=
  ⟨⟨fun tab => (MarshalJSON_ascii tab _ (by decide)).trans (by decide), by decide, by decide⟩,
   ⟨fun tab => (MarshalJSON_ascii tab _ (by decide)).trans (by decide), by decide⟩,
   ⟨fun tab => (MarshalJSON_ascii tab _ (by decide)).trans (by decide), by decide, by decide⟩,
   ⟨fun tab => (MarshalJSON_ascii tab _ (by decide)).trans (by decide), by decide, by decide⟩,
   by decide⟩

/-! ## JSON parsing delegates to the text parser (C7) -/

/-- C7: for every byte sequence `b` of length at least 3 and every receiver
state, `UnmarshalJSON(b)` has the outcome and the receiver state of
`UnmarshalText` on `b` without its first and last byte, whatever these two
bytes are: replacing them by any bytes `x` and `y` changes nothing. -/
theorem json_delegates (v : Version) (b : Bytes) (h : 3 ≤ b.length) :
    slice b 1 ((b.length : Int) - 1) = some b.tail.dropLast ∧
    v.UnmarshalJSON b = v.UnmarshalText b.tail.dropLast ∧
    ∀ x y, v.UnmarshalJSON (x :: (b.tail.dropLast ++ [y])) = v.UnmarshalJSON b := by
  refine ⟨slice_interior b h, UnmarshalJSON_long v b h, ?_⟩
  intro x y
  rw [UnmarshalJSON_long v b h]
  apply UnmarshalJSON_wrapped
  cases b with
  | nil => simp at h
  | cons a as =>
    simp only [List.length_cons] at h
    simp only [List.tail_cons, List.length_dropLast]
    omega

/-- The input `x1.2.3y` is accepted as prefix empty, 1, 2, 3. -/
theorem json_delegates_witness :
    (ascii "x1.2.3y").tail.dropLast = ascii "1.2.3" ∧
    Version.zero.UnmarshalJSON (ascii "x1.2.3y") = some (Version.mk [] 1 2 3, none) ∧
    Version.zero.UnmarshalJSON (ascii "x1.2.3y") =
      Version.zero.UnmarshalText (ascii "x1.2.3y").tail.dropLast :=
  ⟨by decide, by decide, (json_delegates Version.zero (ascii "x1.2.3y") (by decide)).2.1⟩

/-! ## Too few segments (C8) -/

/-- C8: for every input with fewer than two `.` characters, `UnmarshalText`
returns an error and leaves all four fields of the receiver unchanged. -/
theorem segment_count_rejection (v : Version) (b : Bytes) (h : b.count 46 < 2) :
    (Split 46 b).length < 3 ∧
    ∃ e, v.UnmarshalText b = some (v, some e) := by
  have hlen : (Split 46 b).length < 3 := by
    rw [length_Split]; omega
  exact ⟨hlen, _, UnmarshalText_short v b hlen⟩

/-- The input `1.2` is rejected and the receiver `w7.8.9` keeps its fields. -/
theorem segment_count_rejection_witness :
    (ascii "1.2").count 46 < 2 ∧
    ∃ e, (Version.mk (ascii "w") 7 8 9).UnmarshalText (ascii "1.2") =
      some (Version.mk (ascii "w") 7 8 9, some e) :=
  ⟨by decide, (segment_count_rejection (Version.mk (ascii "w") 7 8 9) (ascii "1.2")
    (by decide)).2⟩

/-! ## Too short JSON (C9) -/

/-- C9: for every byte sequence of length 0, 1 or 2, `UnmarshalJSON` returns
the error of a too short input and leaves the receiver unchanged, and it does
so whatever the text parser is: the text parser is not called. -/
theorem json_too_short (v : Version) (b : Bytes) (h : b.length < 3) :
    v.UnmarshalJSON b = some (v, some Error.jsonTooShort) ∧
    ∀ text, Version.UnmarshalJSONWith text v b = some (v, some Error.jsonTooShort) := by
  have hl : ((b.length : Int) < 3) := by omega
  refine ⟨UnmarshalJSON_short v b h, ?_⟩
  intro text
  unfold Version.UnmarshalJSONWith
  simp only [hl, if_true]

/-- The two bytes `""` are rejected, also with a text parser that would fail at once. -/
theorem json_too_short_witness :
    (Version.mk (ascii "w") 7 8 9).UnmarshalJSON [34, 34] =
      some (Version.mk (ascii "w") 7 8 9, some Error.jsonTooShort) ∧
    Version.UnmarshalJSONWith (fun _ _ => none) (Version.mk (ascii "w") 7 8 9) [34, 34] =
      some (Version.mk (ascii "w") 7 8 9, some Error.jsonTooShort) :=
  ⟨(json_too_short (Version.mk (ascii "w") 7 8 9) [34, 34] (by decide)).1,
   (json_too_short (Version.mk (ascii "w") 7 8 9) [34, 34] (by decide)).2 (fun _ _ => none)⟩

/-! ## Formatting (C10) -/

theorem fmtLoop_fuel : ∀ f g u, u ≤ f → u ≤ g → fmtLoop f u = fmtLoop g u := by
  intro f
  induction f with
  | zero =>
    intro g u hf _
    have : u = 0 := by omega
    subst this
    cases g with
    | zero => rfl
    | succ g => simp [fmtLoop]
  | succ f ih =>
    intro g u hf hg
    cases g with
    | zero =>
      have : u = 0 := by omega
      subst this
      simp [fmtLoop]
    | succ g =>
      unfold fmtLoop
      split
      · rfl
      · rw [ih g (u / 10) (by omega) (by omega)]

theorem fmtUint_small (u : Nat) (h : u < 10) : fmtUint u = [48 + u] := by
  unfold fmtUint
  cases u with
  | zero => rfl
  | succ k => unfold fmtLoop; simp only [h, if_true]

theorem fmtUint_step (u : Nat) (h : 10 ≤ u) :
    fmtUint u = fmtUint (u / 10) ++ [48 + u % 10] := by
  unfold fmtUint
  cases u with
  | zero => omega
  | succ k =>
    rw [fmtLoop]
    have hn : ¬ k + 1 < 10 := by omega
    simp only [hn, if_false]
    rw [fmtLoop_fuel k ((k + 1) / 10) ((k + 1) / 10) (by omega) (Nat.le_refl _)]

/-- A number has one canonical decimal numeral, the one `%v` prints. -/
theorem canonical_unique (d : Bytes) : ∀ n, IsCanonicalDec d n → d = fmtUint n := by
  induction d using List.reverseRecOn with
  | nil => intro n h; exact absurd rfl h.1
  | append_singleton init c ih =>
    intro n ⟨_, hall, hval, hhead⟩
    rw [allDigits_append, Bool.and_eq_true, allDigits_cons, Bool.and_eq_true] at hall
    have hc := (isDigit_iff c).mp hall.2.1
    unfold decVal at hval
    rw [decValFrom_append, decValFrom_cons, decValFrom_nil] at hval
    cases init with
    | nil =>
      simp only [decValFrom_nil] at hval
      rw [fmtUint_small n (by omega)]
      have : 48 + n = c := by omega
      rw [this]
      rfl
    | cons a as =>
      have ha : isDigit a = true := by
        have := hall.1
        rw [allDigits_cons, Bool.and_eq_true] at this
        exact this.1
      have ha2 := (isDigit_iff a).mp ha
      have hne : a ≠ 48 := by
        intro h48
        have := hhead (by simp [h48])
        simp at this
      have hcan : IsCanonicalDec (a :: as) (decVal (a :: as)) :=
        ⟨by simp, hall.1, rfl, fun h => absurd (by simpa using h) hne⟩
      have hinit := ih _ hcan
      have hpos : 1 ≤ decVal (a :: as) := by
        unfold decVal
        rw [decValFrom_cons]
        have := le_decValFrom as (10 * 0 + (a - 48))
        omega
      have hm : decValFrom 0 (a :: as) = decVal (a :: as) := rfl
      rw [hm] at hval
      have h10 : 10 ≤ n := by omega
      have hdiv : n / 10 = decVal (a :: as) := by omega
      have hmod : 48 + n % 10 = c := by omega
      rw [fmtUint_step n h10, hdiv, hmod, ← hinit]

/-- C10: for every version, `v.String()` is the prefix, copied as it is and
with nothing after it, followed by the canonical decimal numerals of major,
minor and patch with a `.` between them; the canonical numeral of a number
(not empty, digits only, of that value, no leading zero unless it is `0`)
exists and is unique. -/
theorem String_format (v : Version) :
    (∃ dM dm dp, IsCanonicalDec dM v.major ∧ IsCanonicalDec dm v.minor ∧
      IsCanonicalDec dp v.patch ∧ v.String = v.pfx ++ dM ++ [46] ++ dm ++ [46] ++ dp) ∧
    (∀ dM dm dp, IsCanonicalDec dM v.major → IsCanonicalDec dm v.minor →
      IsCanonicalDec dp v.patch → v.String = v.pfx ++ dM ++ [46] ++ dm ++ [46] ++ dp) := by
  refine ⟨⟨fmtUint v.major, fmtUint v.minor, fmtUint v.patch, fmtUint_canonical _,
    fmtUint_canonical _, fmtUint_canonical _, rfl⟩, ?_⟩
  intro dM dm dp hM hm hp
  rw [canonical_unique dM _ hM, canonical_unique dm _ hm, canonical_unique dp _ hp]
  rfl

/-- The version `v`, 7, 0, 65535 is written `v7.0.65535`; `007` is no canonical numeral. -/
theorem String_format_witness :
    (Version.mk (ascii "v") 7 0 65535).String = ascii "v7.0.65535" ∧
    (Version.mk (ascii "v") 7 0 65535).String =
      ascii "v" ++ ascii "7" ++ [46] ++ ascii "0" ++ [46] ++ ascii "65535" ∧
    ¬ IsCanonicalDec (ascii "007") 7 :=
  ⟨by decide,
   (String_format (Version.mk (ascii "v") 7 0 65535)).2 (ascii "7") (ascii "0") (ascii "65535")
     (by decide) (by decide) (by decide),
   by decide⟩

/-! ## Only the first three segments matter (C11) -/

theorem Split_append_sep_all (sep : Nat) (s t : Bytes) :
    Split sep (s ++ sep :: t) = Split sep s ++ Split sep t := by
  induction s with
  | nil => simp [Split]
  | cons c cs ih =>
    by_cases hc : c = sep
    · rw [List.cons_append, Split, Split]
      simp only [hc, if_true, ih, List.cons_append]
    · rw [List.cons_append, Split_cons_of_ne sep c _ hc, Split_cons_of_ne sep c cs hc, ih]
      cases hs : Split sep cs with
      | nil => exact absurd hs (Split_ne_nil sep cs)
      | cons a rest => rfl

/-- An accepted input, taken apart: its first three segments, each a number
the parser reads, and the fields they give. -/
theorem UnmarshalText_accepted (v r : Version) (b : Bytes)
    (h : v.UnmarshalText b = some (r, none)) :
    ∃ seg0 seg1 seg2 rest, Split 46 b = seg0 :: seg1 :: seg2 :: rest ∧
      IsUint16Text (FindString seg0) ∧ IsUint16Text seg1 ∧ IsUint16Text seg2 ∧
      r = ⟨seg0.take (seg0.length - (FindString seg0).length),
        decVal (FindString seg0), decVal seg1, decVal seg2⟩ := by
  by_cases hlen : (Split 46 b).length < 3
  · rw [UnmarshalText_short v b hlen] at h
    cases h
  · obtain ⟨seg0, seg1, seg2, rest, hs⟩ := Split_three b hlen
    rcases UnmarshalText_outcome v b seg0 seg1 seg2 rest hs with
      ⟨_, e, he⟩ | ⟨_, _, e, he⟩ | ⟨_, _, _, e, he⟩ | ⟨h0, h1, h2, hok⟩
    · rw [he] at h; cases h
    · rw [he] at h; cases h
    · rw [he] at h; cases h
    · rw [hok] at h
      cases h
      exact ⟨seg0, seg1, seg2, rest, hs, h0, h1, h2, rfl⟩

/-- C11: two inputs whose splits on `.` both have at least three segments and
agree on the first three give, from the same receiver state, the same outcome
and the same final receiver state; in particular an accepted input followed
by `.` and any string is accepted with the same resulting fields. -/
theorem first_three_segments (v : Version) (s1 s2 : Bytes) :
    (3 ≤ (Split 46 s1).length → 3 ≤ (Split 46 s2).length →
      (Split 46 s1).take 3 = (Split 46 s2).take 3 →
      v.UnmarshalText s1 = v.UnmarshalText s2) ∧
    (∀ t r, v.UnmarshalText s1 = some (r, none) →
      v.UnmarshalText (s1 ++ 46 :: t) = some (r, none)) := by
  constructor
  · intro h1 h2 h
    obtain ⟨a, b, c, r1, e1⟩ := Split_three s1 (by omega)
    obtain ⟨a2, b2, c2, r2, e2⟩ := Split_three s2 (by omega)
    rw [e1, e2] at h
    simp only [List.take_succ_cons, List.take_zero, List.cons.injEq, and_true] at h
    obtain ⟨ha, hb, hc⟩ := h
    subst ha hb hc
    rw [UnmarshalText_segs v s1 a b c r1 e1, UnmarshalText_segs v s2 a b c r2 e2]
  · intro t r hr
    obtain ⟨a, b, c, r1, e1, _⟩ := UnmarshalText_accepted v r s1 hr
    have e3 : Split 46 (s1 ++ 46 :: t) = a :: b :: c :: (r1 ++ Split 46 t) := by
      rw [Split_append_sep_all, e1]
      rfl
    rw [← hr, UnmarshalText_segs v s1 a b c r1 e1, UnmarshalText_segs v _ a b c _ e3]

/-- The input `1.2.3.4` parses as 1, 2, 3, like `1.2.3` and like `1.2.3.x.y`. -/
theorem first_three_segments_witness :
    Version.zero.UnmarshalText (ascii "1.2.3.x.y") = Version.zero.UnmarshalText (ascii "1.2.3.4") ∧
    Version.zero.UnmarshalText (ascii "1.2.3" ++ 46 :: ascii "4") =
      some (Version.mk [] 1 2 3, none) ∧
    ascii "1.2.3" ++ 46 :: ascii "4" = ascii "1.2.3.4" :=
  ⟨(first_three_segments Version.zero (ascii "1.2.3.x.y") (ascii "1.2.3.4")).1
      (by decide) (by decide) (by decide),
   (first_three_segments Version.zero (ascii "1.2.3") []).2 (ascii "4") (Version.mk [] 1 2 3)
      (by decide),
   by decide⟩

/-! ## The prefix after parsing (C12) -/

/-- What an accepted first segment looks like: the stored prefix followed by
the captured digits, one to four of them, cut at four digits or where the
prefix stops ending in a digit. -/
theorem accepted_seg0 (seg0 : Bytes) (h0 : IsUint16Text (FindString seg0)) :
    seg0 = seg0.take (seg0.length - (FindString seg0).length) ++ FindString seg0 ∧
    firstSegMatchHere (FindString seg0) = true ∧
    ((FindString seg0).length = 4 ∨
      endsInDigit (seg0.take (seg0.length - (FindString seg0).length)) = false) := by
  rcases FindString_spec seg0 with ⟨hnil, _⟩ | ⟨hm, p, hp, hcut⟩
  · exact absurd hnil h0.1
  · refine ⟨(FindString_take seg0).1.symm, hm, ?_⟩
    generalize FindString seg0 = d at hm hp hcut
    subst hp
    have ht : (p ++ d).length - d.length = p.length := by simp
    rw [ht, List.take_left]
    exact hcut

/-- C12, as stated, fails: `v12345.0.0` is accepted with prefix `v1`, which
ends with a decimal digit. -/
theorem prefix_may_end_in_digit :
    Version.zero.UnmarshalText (ascii "v12345.0.0") =
      some (Version.mk (ascii "v1") 2345 0 0, none) ∧
    endsInDigit (Version.mk (ascii "v1") 2345 0 0).pfx = true := by
  decide

/-- C12, amended: for every input that `UnmarshalText` accepts, the resulting
prefix ends with a decimal digit exactly when the first segment ends in five
or more decimal digits; otherwise, and in particular whenever fewer than four
digits were captured, the prefix does not end with a decimal digit. -/
theorem prefix_invariant (v r : Version) (b seg0 seg1 seg2 : Bytes) (rest : List Bytes)
    (hs : Split 46 b = seg0 :: seg1 :: seg2 :: rest)
    (h : v.UnmarshalText b = some (r, none)) :
    (endsInDigit r.pfx = true ↔
      ∃ q e, seg0 = q ++ e ∧ e.length = 5 ∧ allDigits e = true) ∧
    (seg0.length - r.pfx.length < 4 → endsInDigit r.pfx = false) := by
  obtain ⟨t0, t1, t2, trest, hs2, h0, _, _, hr⟩ := UnmarshalText_accepted v r b h
  rw [hs] at hs2
  simp only [List.cons.injEq] at hs2
  obtain ⟨e0, _, _, _⟩ := hs2
  subst e0
  obtain ⟨hsplit, hm, hcut⟩ := accepted_seg0 seg0 h0
  have hpfx : r.pfx = seg0.take (seg0.length - (FindString seg0).length) := by rw [hr]
  rw [hpfx]
  generalize seg0.take (seg0.length - (FindString seg0).length) = p at hsplit hcut
  generalize FindString seg0 = d at hsplit hm hcut
  obtain ⟨hd1, hd4, hall⟩ := (firstSegMatchHere_iff d).mp hm
  have hdne : d ≠ [] := by intro e; rw [e] at hd1; simp at hd1
  subst hsplit
  refine ⟨⟨?_, ?_⟩, ?_⟩
  · intro hp
    have h4 : d.length = 4 := by
      rcases hcut with h4 | hn
      · exact h4
      · rw [hp] at hn; cases hn
    cases hl : p.getLast? with
    | none =>
      unfold endsInDigit at hp
      rw [hl] at hp
      cases hp
    | some c =>
      obtain ⟨ys, hys⟩ := List.getLast?_eq_some_iff.mp hl
      have hc : isDigit c = true := by
        unfold endsInDigit at hp
        rw [hl] at hp
        exact hp
      refine ⟨ys, c :: d, by rw [hys]; simp, by simp [h4], ?_⟩
      rw [allDigits_cons, hc, hall]
      rfl
  · rintro ⟨q, e, hqe, he5, hae⟩
    rcases List.append_eq_append_iff.mp hqe with ⟨a, hq, hd⟩ | ⟨c, hp, he⟩
    · exfalso
      have : d.length = a.length + e.length := by rw [hd]; simp
      omega
    · have hcl : c.length = 5 - d.length := by
        have : e.length = c.length + d.length := by rw [he]; simp
        omega
      have hcne : c ≠ [] := by
        intro ec; rw [ec] at hcl; simp at hcl; omega
      have hac : allDigits c = true := by
        rw [he, allDigits_append, Bool.and_eq_true] at hae
        exact hae.1
      rw [hp, endsInDigit_append_of_ne_nil _ _ hcne]
      exact endsInDigit_of_allDigits c hcne hac
  · intro hlt
    rcases hcut with h4 | hn
    · exfalso
      simp only [List.length_append] at hlt
      omega
    · exact hn

/-- The input `v123.0.0` is accepted with prefix `v` and three captured digits;
the prefix does not end in a digit. -/
theorem prefix_invariant_witness :
    Version.zero.UnmarshalText (ascii "v123.0.0") = some (Version.mk (ascii "v") 123 0 0, none) ∧
    endsInDigit (Version.mk (ascii "v") 123 0 0).pfx = false :=
  ⟨by decide,
   (prefix_invariant Version.zero (Version.mk (ascii "v") 123 0 0) (ascii "v123.0.0")
      (ascii "v123") (ascii "0") (ascii "0") [] (by decide) (by decide)).2 (by decide)⟩

/-! ## The four digit cap on the parsed major (C13) -/

theorem match_decVal_le (d : Bytes) (h : firstSegMatchHere d = true) : decVal d ≤ 9999 := by
  obtain ⟨_, h4, hall⟩ := (firstSegMatchHere_iff d).mp h
  have hlt := decValFrom_lt d 0 hall
  have hpow : 10 ^ d.length ≤ 10 ^ 4 := Nat.pow_le_pow_right (by omega) h4
  unfold decVal
  norm_num at hpow hlt
  omega

/-- C13: for every input that `UnmarshalText` accepts, the resulting major is
at most 9999, and when the first segment ends in five or more decimal digits
(a digit `c` followed by four digits `e` at its end) the major is the value of
the last four digits and everything before them, the digit `c` included, is
the prefix. -/
theorem major_cap (v r : Version) (b seg0 seg1 seg2 : Bytes) (rest : List Bytes)
    (hs : Split 46 b = seg0 :: seg1 :: seg2 :: rest)
    (h : v.UnmarshalText b = some (r, none)) :
    r.major ≤ 9999 ∧
    ∀ q c e, seg0 = q ++ c :: e → isDigit c = true → allDigits e = true → e.length = 4 →
      r.pfx = q ++ [c] ∧ r.major = decVal e := by
  obtain ⟨t0, t1, t2, trest, hs2, h0, _, _, hr⟩ := UnmarshalText_accepted v r b h
  rw [hs] at hs2
  simp only [List.cons.injEq] at hs2
  obtain ⟨e0, _, _, _⟩ := hs2
  subst e0
  obtain ⟨_, hm, _⟩ := accepted_seg0 seg0 h0
  refine ⟨by rw [hr]; exact match_decVal_le _ hm, ?_⟩
  intro q c e hq hc he h4
  have hme : firstSegMatchHere e = true :=
    (firstSegMatchHere_iff e).mpr ⟨by omega, by omega, he⟩
  have hseg : seg0 = (q ++ [c]) ++ e := by rw [hq]; simp
  have hF : FindString seg0 = e := by
    rw [hseg]
    exact FindString_append (q ++ [c]) e hme (Or.inl h4)
  rw [hr, hF]
  refine ⟨?_, rfl⟩
  show seg0.take (seg0.length - e.length) = q ++ [c]
  rw [hseg]
  have : ((q ++ [c]) ++ e).length - e.length = (q ++ [c]).length := by
    simp only [List.length_append]; omega
  rw [this, List.take_left]

/-- The input `v12345.0.0` is accepted with prefix `v1` and major 2345. -/
theorem major_cap_witness :
    Version.zero.UnmarshalText (ascii "v12345.0.0") =
      some (Version.mk (ascii "v1") 2345 0 0, none) ∧
    (Version.mk (ascii "v1") 2345 0 0).major ≤ 9999 ∧
    ((Version.mk (ascii "v1") 2345 0 0).pfx = ascii "v" ++ [49] ∧
      (Version.mk (ascii "v1") 2345 0 0).major = decVal (ascii "2345")) :=
  ⟨by decide,
   (major_cap Version.zero (Version.mk (ascii "v1") 2345 0 0) (ascii "v12345.0.0")
      (ascii "v12345") (ascii "0") (ascii "0") [] (by decide) (by decide)).1,
   (major_cap Version.zero (Version.mk (ascii "v1") 2345 0 0) (ascii "v12345.0.0")
      (ascii "v12345") (ascii "0") (ascii "0") [] (by decide) (by decide)).2
      (ascii "v") 49 (ascii "2345") (by decide) (by decide) (by decide) (by decide)⟩

/-! ## Setters and getters (C14) -/

/-- C14: each of `SetPrefix`, `SetMajor`, `SetMinor`, `SetPatch` makes the
matching getter return the value set and leaves the results of the other three
getters unchanged, and returns the updated version, so calls chain: the chain
`SetPrefix(p).SetMajor(a).SetMinor(b).SetPatch(c)` on the zero value has as its
text `p`, then the canonical numerals of `a`, `b` and `c` with `.` between. -/
theorem setters_getters (v : Version) (sval : Bytes) (val : Nat) :
    ((v.SetPrefix sval).GetPrefix = sval ∧ (v.SetPrefix sval).GetMajor = v.GetMajor ∧
      (v.SetPrefix sval).GetMinor = v.GetMinor ∧ (v.SetPrefix sval).GetPatch = v.GetPatch) ∧
    ((v.SetMajor val).GetMajor = val ∧ (v.SetMajor val).GetPrefix = v.GetPrefix ∧
      (v.SetMajor val).GetMinor = v.GetMinor ∧ (v.SetMajor val).GetPatch = v.GetPatch) ∧
    ((v.SetMinor val).GetMinor = val ∧ (v.SetMinor val).GetPrefix = v.GetPrefix ∧
      (v.SetMinor val).GetMajor = v.GetMajor ∧ (v.SetMinor val).GetPatch = v.GetPatch) ∧
    ((v.SetPatch val).GetPatch = val ∧ (v.SetPatch val).GetPrefix = v.GetPrefix ∧
      (v.SetPatch val).GetMajor = v.GetMajor ∧ (v.SetPatch val).GetMinor = v.GetMinor) ∧
    (∀ p a b c dA dB dC, IsCanonicalDec dA a → IsCanonicalDec dB b → IsCanonicalDec dC c →
      ((((Version.zero.SetPrefix p).SetMajor a).SetMinor b).SetPatch c).String =
        p ++ dA ++ [46] ++ dB ++ [46] ++ dC) := by
  refine ⟨⟨rfl, rfl, rfl, rfl⟩, ⟨rfl, rfl, rfl, rfl⟩, ⟨rfl, rfl, rfl, rfl⟩,
    ⟨rfl, rfl, rfl, rfl⟩, ?_⟩
  intro p a b c dA dB dC hA hB hC
  rw [canonical_unique dA a hA, canonical_unique dB b hB, canonical_unique dC c hC]
  rfl

/-- The chain with `x`, 1, 2, 3 gives the text `x1.2.3`. -/
theorem setters_getters_witness :
    ((((Version.zero.SetPrefix (ascii "x")).SetMajor 1).SetMinor 2).SetPatch 3).String =
      ascii "x1.2.3" :=
  ((setters_getters Version.zero [] 0).2.2.2.2 (ascii "x") 1 2 3
    (ascii "1") (ascii "2") (ascii "3") (by decide) (by decide) (by decide)).trans (by decide)

/-! ## Parsing the text of a parsed version (C15) -/

theorem fmtUint_length_ge_four (u : Nat) (h : 1000 ≤ u) : 4 ≤ (fmtUint u).length := by
  rw [fmtUint_step u (by omega), fmtUint_step (u / 10) (by omega),
    fmtUint_step (u / 10 / 10) (by omega)]
  have := List.length_pos.mpr (fmtUint_ne_nil (u / 10 / 10 / 10))
  simp only [List.length_append, List.length_singleton]
  omega

theorem fmtUint_length_le_three (u : Nat) (h : u < 1000) : (fmtUint u).length ≤ 3 :=
  fmtLoop_length u u 2 (Nat.le_refl u) (by norm_num; omega)

theorem fmtUint_isUint16Text (u : Nat) (h : u ≤ 65535) : IsUint16Text (fmtUint u) :=
  ⟨fmtUint_ne_nil u, fmtUint_allDigits u, by rw [decVal_fmtUint]; exact h⟩

/-- Parsing the text of any version with a dot-free prefix and minor and patch
in range succeeds; the prefix and major it gives are those the pattern finds
in the prefix followed by the numeral of major. -/
theorem UnmarshalText_String_any (r v : Version) (hm : v.minor ≤ 65535)
    (hp : v.patch ≤ 65535) (hdot : 46 ∉ v.pfx) :
    r.UnmarshalText v.String =
      some (⟨(v.pfx ++ fmtUint v.major).take ((v.pfx ++ fmtUint v.major).length -
          (FindString (v.pfx ++ fmtUint v.major)).length),
        decVal (FindString (v.pfx ++ fmtUint v.major)), v.minor, v.patch⟩, none) := by
  have h0 : IsUint16Text (FindString (v.pfx ++ fmtUint v.major)) := by
    rw [FindString_isUint16Text_iff, endsInDigit_append_of_ne_nil _ _ (fmtUint_ne_nil _)]
    exact endsInDigit_of_allDigits _ (fmtUint_ne_nil _) (fmtUint_allDigits _)
  rcases UnmarshalText_outcome r v.String _ _ _ [] (String_split v hdot) with
    ⟨hn, _⟩ | ⟨_, hn, _⟩ | ⟨_, _, hn, _⟩ | ⟨_, _, _, hok⟩
  · exact absurd h0 hn
  · exact absurd (fmtUint_isUint16Text _ hm) hn
  · exact absurd (fmtUint_isUint16Text _ hp) hn
  · rw [hok, decVal_fmtUint, decVal_fmtUint]

/-- The fields of an accepted input: a prefix without `.`, a major of at most
four digits, minor and patch in range. -/
theorem accepted_fields (v0 v : Version) (s : Bytes)
    (h : v0.UnmarshalText s = some (v, none)) :
    46 ∉ v.pfx ∧ v.major ≤ 9999 ∧ v.minor ≤ 65535 ∧ v.patch ≤ 65535 := by
  obtain ⟨seg0, seg1, seg2, rest, hs, h0, h1, h2, hr⟩ := UnmarshalText_accepted v0 v s h
  obtain ⟨_, hm, _⟩ := accepted_seg0 seg0 h0
  rw [hr]
  refine ⟨?_, match_decVal_le _ hm, h1.2.2, h2.2.2⟩
  intro hmem
  have hseg : 46 ∉ seg0 := Split_not_mem 46 s seg0 (by rw [hs]; simp)
  exact hseg (List.mem_of_mem_take hmem)

/-- C15, as stated, fails: `x10012.0.0` is accepted with prefix `x1` and major
12 (the four captured digits are `0012`); the text of that version is
`x112.0.0`, which parses to prefix `x` and major 112. -/
theorem reparse_fails :
    Version.zero.UnmarshalText (ascii "x10012.0.0") =
      some (Version.mk (ascii "x1") 12 0 0, none) ∧
    (Version.mk (ascii "x1") 12 0 0).String = ascii "x112.0.0" ∧
    Version.zero.UnmarshalText (Version.mk (ascii "x1") 12 0 0).String =
      some (Version.mk (ascii "x") 112 0 0, none) ∧
    Version.mk (ascii "x") 112 0 0 ≠ Version.mk (ascii "x1") 12 0 0 := by
  decide

/-- C15, amended: for every input that `UnmarshalText` accepts with result `v`,
`UnmarshalText` applied to `v.String()` succeeds from any receiver state, with
the minor and patch of `v`; the version it yields is `v` exactly when the
prefix of `v` does not end in a decimal digit or the major of `v` is at least
1000. -/
theorem reparse_round_trip (v0 v r0 : Version) (s : Bytes)
    (h : v0.UnmarshalText s = some (v, none)) :
    ∃ w, r0.UnmarshalText v.String = some (w, none) ∧
      w.minor = v.minor ∧ w.patch = v.patch ∧
      (w = v ↔ (endsInDigit v.pfx = false ∨ 1000 ≤ v.major)) := by
  obtain ⟨hdot, hM, hm, hp⟩ := accepted_fields v0 v s h
  refine ⟨_, UnmarshalText_String_any r0 v hm hp hdot, rfl, rfl, ?_⟩
  constructor
  · intro hw
    by_cases hc : endsInDigit v.pfx = false ∨ 1000 ≤ v.major
    · exact hc
    · exfalso
      have hend : endsInDigit v.pfx = true := by
        cases he : endsInDigit v.pfx
        · exact absurd (Or.inl he) hc
        · rfl
      have hlt : v.major < 1000 := by
        by_contra hge
        exact hc (Or.inr (by omega))
      have hd3 := fmtUint_length_le_three v.major hlt
      cases hl : v.pfx.getLast? with
      | none =>
        unfold endsInDigit at hend
        rw [hl] at hend
        cases hend
      | some c =>
        obtain ⟨ys, hys⟩ := List.getLast?_eq_some_iff.mp hl
        have hcd : isDigit c = true := by
          unfold endsInDigit at hend
          rw [hl] at hend
          exact hend
        have hmc : firstSegMatchHere (c :: fmtUint v.major) = true := by
          rw [firstSegMatchHere_iff]
          refine ⟨by simp, by simp only [List.length_cons]; omega, ?_⟩
          rw [allDigits_cons, hcd, fmtUint_allDigits]
          rfl
        have hlong := FindString_longest ys (c :: fmtUint v.major) hmc
        have hseg : ys ++ c :: fmtUint v.major = v.pfx ++ fmtUint v.major := by
          rw [hys]; simp
        rw [hseg] at hlong
        have hpf : (List.take ((v.pfx ++ fmtUint v.major).length -
            (FindString (v.pfx ++ fmtUint v.major)).length)
            (v.pfx ++ fmtUint v.major)).length = v.pfx.length :=
          congrArg (fun x => x.pfx.length) hw
        have hle := List.length_take_le ((v.pfx ++ fmtUint v.major).length -
            (FindString (v.pfx ++ fmtUint v.major)).length) (v.pfx ++ fmtUint v.major)
        rw [hpf] at hle
        have hlen : v.pfx.length = ys.length + 1 := by rw [hys]; simp
        simp only [List.length_append, List.length_cons] at hle hlong
        omega
  · intro hc
    have hcut : (fmtUint v.major).length = 4 ∨ endsInDigit v.pfx = false := by
      rcases hc with he | hge
      · exact Or.inr he
      · left
        have h1 := fmtUint_length_ge_four v.major hge
        have h2 := fmtUint_length_le_four v.major hM
        omega
    have hF : FindString (v.pfx ++ fmtUint v.major) = fmtUint v.major :=
      FindString_append _ _ (fmtUint_match _ hM) hcut
    have ht : (v.pfx ++ fmtUint v.major).length - (fmtUint v.major).length = v.pfx.length := by
      simp
    rw [hF, ht, List.take_left, decVal_fmtUint]

/-- The input `v12345.0.0` parses to `v1`, 2345, whose text parses to the same
version again, the prefix ending in a digit and the major being above 1000. -/
theorem reparse_round_trip_witness :
    Version.zero.UnmarshalText (ascii "v12345.0.0") =
      some (Version.mk (ascii "v1") 2345 0 0, none) ∧
    (∃ w, (Version.mk (ascii "old") 7 7 7).UnmarshalText
        (Version.mk (ascii "v1") 2345 0 0).String = some (w, none) ∧
      w.minor = (Version.mk (ascii "v1") 2345 0 0).minor ∧
      w.patch = (Version.mk (ascii "v1") 2345 0 0).patch ∧
      (w = Version.mk (ascii "v1") 2345 0 0 ↔
        (endsInDigit (Version.mk (ascii "v1") 2345 0 0).pfx = false ∨
          1000 ≤ (Version.mk (ascii "v1") 2345 0 0).major))) ∧
    (Version.mk (ascii "old") 7 7 7).UnmarshalText (Version.mk (ascii "v1") 2345 0 0).String =
      some (Version.mk (ascii "v1") 2345 0 0, none) :=
  ⟨by decide,
   reparse_round_trip Version.zero (Version.mk (ascii "v1") 2345 0 0)
     (Version.mk (ascii "old") 7 7 7) (ascii "v12345.0.0") (by decide),
   by decide⟩

/-! ## Text round trip under the full precondition (C16) -/

/-- C16: for every version whose prefix contains no `.` and does not end in a
decimal digit and whose major is at most 9999, minor and patch being anywhere
in 0..65535, `UnmarshalText` applied to `v.String()` from any receiver state
succeeds and leaves the receiver equal to `v`, field by field. -/
theorem text_round_trip_full (r v : Version) (hdot : 46 ∉ v.pfx)
    (hend : endsInDigit v.pfx = false) (hM : v.major ≤ 9999) (hm : v.minor < 65536)
    (hp : v.patch < 65536) :
    ∃ w, r.UnmarshalText v.String = some (w, none) ∧
      w.GetPrefix = v.GetPrefix ∧ w.GetMajor = v.GetMajor ∧
      w.GetMinor = v.GetMinor ∧ w.GetPatch = v.GetPatch :=
  ⟨v, UnmarshalText_String r v hM (by omega) (by omega) hdot hend, rfl, rfl, rfl, rfl⟩

/-- The text `rel-0.65535.65535` of the version `rel-`, 0, 65535, 65535 parses
back to it into a receiver holding other values. -/
theorem text_round_trip_full_witness :
    (Version.mk (ascii "rel-") 0 65535 65535).String = ascii "rel-0.65535.65535" ∧
    ∃ w, (Version.mk (ascii "zz9") 1 2 3).UnmarshalText
        (Version.mk (ascii "rel-") 0 65535 65535).String = some (w, none) ∧
      w.GetPrefix = ascii "rel-" ∧ w.GetMajor = 0 ∧ w.GetMinor = 65535 ∧ w.GetPatch = 65535 :=
  ⟨by decide,
   text_round_trip_full (Version.mk (ascii "zz9") 1 2 3) (Version.mk (ascii "rel-") 0 65535 65535)
     (by decide) (by decide) (by decide) (by decide) (by decide)⟩

/-! ## Formatting undoes parsing on canonical text (C17) -/

/-- C17: for every input that `UnmarshalText` accepts, if the input has exactly
three segments and none of the three numeric texts (the digits captured at
the end of the first segment, the second segment, the third segment) has a
leading zero, the numeral `0` apart, then `String()` of the parsed version is
the input. -/
theorem format_undoes_parse (v r : Version) (s seg0 seg1 seg2 : Bytes)
    (h : v.UnmarshalText s = some (r, none))
    (h3 : Split 46 s = [seg0, seg1, seg2])
    (hz0 : (FindString seg0).head? = some 48 → FindString seg0 = [48])
    (hz1 : seg1.head? = some 48 → seg1 = [48])
    (hz2 : seg2.head? = some 48 → seg2 = [48]) :
    r.String = s := by
  obtain ⟨t0, t1, t2, trest, hs2, h0, h1, h2, hr⟩ := UnmarshalText_accepted v r s h
  rw [h3] at hs2
  simp only [List.cons.injEq] at hs2
  obtain ⟨e0, e1, e2, _⟩ := hs2
  subst e0 e1 e2
  have hjoin : seg0 ++ 46 :: (seg1 ++ 46 :: seg2) = s := by
    have := Split_intercalate 46 s
    rw [h3] at this
    simpa [List.intercalate, List.intersperse] using this
  have c0 : FindString seg0 = fmtUint (decVal (FindString seg0)) :=
    canonical_unique _ _ ⟨h0.1, h0.2.1, rfl, hz0⟩
  have c1 : seg1 = fmtUint (decVal seg1) := canonical_unique _ _ ⟨h1.1, h1.2.1, rfl, hz1⟩
  have c2 : seg2 = fmtUint (decVal seg2) := canonical_unique _ _ ⟨h2.1, h2.2.1, rfl, hz2⟩
  rw [hr]
  show seg0.take (seg0.length - (FindString seg0).length) ++
      fmtUint (decVal (FindString seg0)) ++ [46] ++ fmtUint (decVal seg1) ++ [46] ++
      fmtUint (decVal seg2) = s
  rw [← c0, ← c1, ← c2, (FindString_take seg0).1, ← hjoin]
  simp

/-- The text `build-42.1.0` parses and formats back to itself; `v01.2.3`, with
a leading zero, formats to `v1.2.3`. -/
theorem format_undoes_parse_witness :
    (Version.mk (ascii "build-") 42 1 0).String = ascii "build-42.1.0" ∧
    Version.zero.UnmarshalText (ascii "v01.2.3") = some (Version.mk (ascii "v") 1 2 3, none) ∧
    (Version.mk (ascii "v") 1 2 3).String = ascii "v1.2.3" :=
  ⟨format_undoes_parse Version.zero (Version.mk (ascii "build-") 42 1 0) (ascii "build-42.1.0")
      (ascii "build-42") (ascii "1") (ascii "0") (by decide) (by decide) (by decide)
      (by decide) (by decide),
   by decide, by decide⟩

/-! ## A successful parse does not depend on the receiver (C18) -/

/-- C18: an input that `UnmarshalText` accepts from one receiver state is
accepted from every receiver state, with the same final state: all four
fields are overwritten. The prefix is the empty string when the first segment
is made of one to four digits only. -/
theorem parse_ignores_receiver (v1 v2 r : Version) (b : Bytes)
    (h : v1.UnmarshalText b = some (r, none)) :
    v2.UnmarshalText b = some (r, none) ∧
    (∀ seg0 seg1 seg2 rest, Split 46 b = seg0 :: seg1 :: seg2 :: rest →
      allDigits seg0 = true → seg0.length ≤ 4 → r.pfx = []) := by
  obtain ⟨seg0, seg1, seg2, rest, hs, h0, h1, h2, hr⟩ := UnmarshalText_accepted v1 r b h
  constructor
  · rcases UnmarshalText_outcome v2 b seg0 seg1 seg2 rest hs with
      ⟨hn, _⟩ | ⟨_, hn, _⟩ | ⟨_, _, hn, _⟩ | ⟨_, _, _, hok⟩
    · exact absurd h0 hn
    · exact absurd h1 hn
    · exact absurd h2 hn
    · rw [hok, hr]
  · intro t0 t1 t2 trest hs2 hall h4
    rw [hs] at hs2
    simp only [List.cons.injEq] at hs2
    obtain ⟨e0, _, _, _⟩ := hs2
    subst e0
    have hne : seg0 ≠ [] := by
      intro e
      rw [e] at h0
      exact h0.1 rfl
    have hm : firstSegMatchHere seg0 = true :=
      (firstSegMatchHere_iff seg0).mpr ⟨List.length_pos.mpr hne, h4, hall⟩
    rw [hr, FindString_of_match seg0 hm]
    simp

/-- The input `12.3.4` resets a receiver holding `old7.7.7` to an empty
prefix, 12, 3, 4. -/
theorem parse_ignores_receiver_witness :
    Version.zero.UnmarshalText (ascii "12.3.4") = some (Version.mk [] 12 3 4, none) ∧
    (Version.mk (ascii "old") 7 7 7).UnmarshalText (ascii "12.3.4") =
      some (Version.mk [] 12 3 4, none) :=
  ⟨by decide,
   (parse_ignores_receiver Version.zero (Version.mk (ascii "old") 7 7 7) (Version.mk [] 12 3 4)
      (ascii "12.3.4") (by decide)).1⟩

/-! ## No out-of-range access (C19) -/

theorem UnmarshalText_total (v : Version) (b : Bytes) :
    ∃ r e, v.UnmarshalText b = some (r, e) := by
  by_cases hlen : (Split 46 b).length < 3
  · exact ⟨_, _, UnmarshalText_short v b hlen⟩
  · obtain ⟨seg0, seg1, seg2, rest, hs⟩ := Split_three b hlen
    rcases UnmarshalText_outcome v b seg0 seg1 seg2 rest hs with
      ⟨_, e, he⟩ | ⟨_, _, e, he⟩ | ⟨_, _, _, e, he⟩ | ⟨_, _, _, hok⟩
    · exact ⟨_, _, he⟩
    · exact ⟨_, _, he⟩
    · exact ⟨_, _, he⟩
    · exact ⟨_, _, hok⟩

/-- C19: for every byte sequence and receiver state, `UnmarshalText` and
`UnmarshalJSON` end with success or an error, never with the panic of an index
or slice out of range: the three segments read exist when there are at least
three, the slice `segs[0][0:pe]` taken when `pe > 0` has `pe <= len(segs[0])`,
and the slice `b[1 : l-1]` is in bounds when `l >= 3`. -/
theorem no_out_of_range (v : Version) (b : Bytes) :
    (∃ r e, v.UnmarshalText b = some (r, e)) ∧
    (∃ r e, v.UnmarshalJSON b = some (r, e)) ∧
    (3 ≤ (Split 46 b).length →
      ∃ s0 s1 s2, index (Split 46 b) 0 = some s0 ∧ index (Split 46 b) 1 = some s1 ∧
        index (Split 46 b) 2 = some s2) ∧
    (∀ seg0 : Bytes, (seg0.length : Int) - ((FindString seg0).length : Int) > 0 →
      (seg0.length : Int) - ((FindString seg0).length : Int) ≤ (seg0.length : Int) ∧
      ∃ p, slice seg0 0 ((seg0.length : Int) - ((FindString seg0).length : Int)) = some p) ∧
    (3 ≤ b.length → ∃ inner, slice b 1 ((b.length : Int) - 1) = some inner) := by
  refine ⟨UnmarshalText_total v b, ?_, ?_, ?_, ?_⟩
  · by_cases hl : b.length < 3
    · exact ⟨_, _, UnmarshalJSON_short v b hl⟩
    · rw [UnmarshalJSON_long v b (by omega)]
      exact UnmarshalText_total v _
  · intro h3
    obtain ⟨seg0, seg1, seg2, rest, hs⟩ := Split_three b (by omega)
    rw [hs]
    exact ⟨seg0, seg1, seg2, rfl, rfl, rfl⟩
  · intro seg0 hpos
    refine ⟨by omega, ?_⟩
    unfold slice
    have hc : (0 : Int) ≤ 0 ∧ (0 : Int) ≤ (seg0.length : Int) - ((FindString seg0).length : Int) ∧
        (seg0.length : Int) - ((FindString seg0).length : Int) ≤ (seg0.length : Int) := by
      omega
    rw [if_pos hc]
    exact ⟨_, rfl⟩
  · intro h3
    exact ⟨_, slice_interior b h3⟩

/-- The empty input, a lone `.` and JSON inputs of length 0 to 2 end with an
error; without their guards the accesses would panic: a list of two segments
has no index 2 and a one byte input has no slice from 1 to 0. -/
theorem no_out_of_range_witness :
    (∃ r e, Version.zero.UnmarshalText [] = some (r, e)) ∧
    Version.zero.UnmarshalText [] = some (Version.zero, some Error.notThreeSegments) ∧
    Version.zero.UnmarshalText (ascii ".") = some (Version.zero, some Error.notThreeSegments) ∧
    Version.zero.UnmarshalJSON [] = some (Version.zero, some Error.jsonTooShort) ∧
    Version.zero.UnmarshalJSON [34] = some (Version.zero, some Error.jsonTooShort) ∧
    Version.zero.UnmarshalJSON [34, 34] = some (Version.zero, some Error.jsonTooShort) ∧
    index (Split 46 (ascii "1.2")) 2 = none ∧
    slice [34] 1 0 = none :=
  ⟨(no_out_of_range Version.zero []).1, by decide, by decide, by decide, by decide, by decide,
   by decide, by decide⟩

/-! ## JSON round trip, the exact condition (C6) -/

/-- Parsing the text of a version with a dot-free prefix and minor and patch
in range succeeds with that minor and patch, and gives the version back
exactly when its major has at most four digits and is not preceded by a
digit that the pattern would capture with it. -/
theorem String_reparse (r v : Version) (hm : v.minor ≤ 65535) (hp : v.patch ≤ 65535)
    (hdot : 46 ∉ v.pfx) :
    ∃ w, r.UnmarshalText v.String = some (w, none) ∧
      w.minor = v.minor ∧ w.patch = v.patch ∧
      (w = v ↔ (v.major ≤ 9999 ∧ (endsInDigit v.pfx = false ∨ 1000 ≤ v.major))) := by
  refine ⟨_, UnmarshalText_String_any r v hm hp hdot, rfl, rfl, ?_⟩
  constructor
  · intro hw
    have h0 : IsUint16Text (FindString (v.pfx ++ fmtUint v.major)) := by
      rw [FindString_isUint16Text_iff, endsInDigit_append_of_ne_nil _ _ (fmtUint_ne_nil _)]
      exact endsInDigit_of_allDigits _ (fmtUint_ne_nil _) (fmtUint_allDigits _)
    obtain ⟨_, hmF, _⟩ := accepted_seg0 _ h0
    have hmaj : decVal (FindString (v.pfx ++ fmtUint v.major)) = v.major :=
      congrArg (fun x => x.major) hw
    have hM : v.major ≤ 9999 := by
      rw [← hmaj]
      exact match_decVal_le _ hmF
    refine ⟨hM, ?_⟩
    by_cases hc : endsInDigit v.pfx = false ∨ 1000 ≤ v.major
    · exact hc
    · exfalso
      have hend : endsInDigit v.pfx = true := by
        cases he : endsInDigit v.pfx
        · exact absurd (Or.inl he) hc
        · rfl
      have hlt : v.major < 1000 := by
        by_contra hge
        exact hc (Or.inr (by omega))
      have hd3 := fmtUint_length_le_three v.major hlt
      cases hl : v.pfx.getLast? with
      | none =>
        unfold endsInDigit at hend
        rw [hl] at hend
        cases hend
      | some c =>
        obtain ⟨ys, hys⟩ := List.getLast?_eq_some_iff.mp hl
        have hcd : isDigit c = true := by
          unfold endsInDigit at hend
          rw [hl] at hend
          exact hend
        have hmc : firstSegMatchHere (c :: fmtUint v.major) = true := by
          rw [firstSegMatchHere_iff]
          refine ⟨by simp, by simp only [List.length_cons]; omega, ?_⟩
          rw [allDigits_cons, hcd, fmtUint_allDigits]
          rfl
        have hlong := FindString_longest ys (c :: fmtUint v.major) hmc
        have hseg : ys ++ c :: fmtUint v.major = v.pfx ++ fmtUint v.major := by
          rw [hys]; simp
        rw [hseg] at hlong
        have hpf : (List.take ((v.pfx ++ fmtUint v.major).length -
            (FindString (v.pfx ++ fmtUint v.major)).length)
            (v.pfx ++ fmtUint v.major)).length = v.pfx.length :=
          congrArg (fun x => x.pfx.length) hw
        have hle := List.length_take_le ((v.pfx ++ fmtUint v.major).length -
            (FindString (v.pfx ++ fmtUint v.major)).length) (v.pfx ++ fmtUint v.major)
        rw [hpf] at hle
        have hlen : v.pfx.length = ys.length + 1 := by rw [hys]; simp
        simp only [List.length_append, List.length_cons] at hle hlong
        omega
  · rintro ⟨hM, hc⟩
    have hcut : (fmtUint v.major).length = 4 ∨ endsInDigit v.pfx = false := by
      rcases hc with he | hge
      · exact Or.inr he
      · left
        have h1 := fmtUint_length_ge_four v.major hge
        have h2 := fmtUint_length_le_four v.major hM
        omega
    have hF : FindString (v.pfx ++ fmtUint v.major) = fmtUint v.major :=
      FindString_append _ _ (fmtUint_match _ hM) hcut
    have ht : (v.pfx ++ fmtUint v.major).length - (fmtUint v.major).length = v.pfx.length := by
      simp
    rw [hF, ht, List.take_left, decVal_fmtUint]

/-- C6, amended: for every version whose minor and patch are at most 65535,
whose prefix contains no `.`, and in whose text `strconv.Quote` escapes nothing
(`MarshalJSON` returns the text between two double quotes; so it is when every
byte of the prefix is a printable ASCII character other than the double quote
and the backslash), `UnmarshalJSON` applied to the bytes `MarshalJSON` returns
succeeds from any receiver state, with the minor and patch of `v`, and leaves
the receiver equal to `v` exactly when the major of `v` is at most 9999 and
the prefix of `v` does not end in a decimal digit or the major is at least
1000. -/
theorem json_round_trip (tab : Nat → Bool) (r v : Version)
    (hm : v.minor ≤ 65535) (hp : v.patch ≤ 65535) (hdot : 46 ∉ v.pfx)
    (hq : (Version.MarshalJSON tab v).1 = 34 :: (v.String ++ [34]) ∨
      ∀ c ∈ v.pfx, plainByte c = true) :
    ∃ w, r.UnmarshalJSON (Version.MarshalJSON tab v).1 = some (w, none) ∧
      w.minor = v.minor ∧ w.patch = v.patch ∧
      (w = v ↔ (v.major ≤ 9999 ∧ (endsInDigit v.pfx = false ∨ 1000 ≤ v.major))) := by
  have hq2 : (Version.MarshalJSON tab v).1 = 34 :: (v.String ++ [34]) := by
    rcases hq with h | h
    · exact h
    · exact Quote_plain tab v h
  rw [hq2, UnmarshalJSON_wrapped r 34 34 v.String (by have := String_length v; omega)]
  exact String_reparse r v hm hp hdot

/-- The JSON round trips of `x1`, 2345, 0, 0, whose prefix ends in a digit, and
of `build-`, 9999, 65535, 0 into a receiver holding `old7.7.7`. -/
theorem json_round_trip_witness :
    (∃ w, (Version.mk (ascii "old") 7 7 7).UnmarshalJSON
        (Version.MarshalJSON (fun _ => false) (Version.mk (ascii "x1") 2345 0 0)).1 =
          some (w, none) ∧
      w.minor = (Version.mk (ascii "x1") 2345 0 0).minor ∧
      w.patch = (Version.mk (ascii "x1") 2345 0 0).patch ∧
      (w = Version.mk (ascii "x1") 2345 0 0 ↔
        ((Version.mk (ascii "x1") 2345 0 0).major ≤ 9999 ∧
          (endsInDigit (Version.mk (ascii "x1") 2345 0 0).pfx = false ∨
            1000 ≤ (Version.mk (ascii "x1") 2345 0 0).major)))) ∧
    (Version.MarshalJSON (fun _ => false) (Version.mk (ascii "x1") 2345 0 0)).1 =
      34 :: (ascii "x12345.0.0" ++ [34]) ∧
    (Version.mk (ascii "old") 7 7 7).UnmarshalJSON (34 :: (ascii "x12345.0.0" ++ [34])) =
      some (Version.mk (ascii "x1") 2345 0 0, none) ∧
    (Version.mk (ascii "old") 7 7 7).UnmarshalJSON
        (34 :: (ascii "build-9999.65535.0" ++ [34])) =
      some (Version.mk (ascii "build-") 9999 65535 0, none) :=
  ⟨json_round_trip (fun _ => false) (Version.mk (ascii "old") 7 7 7)
      (Version.mk (ascii "x1") 2345 0 0)
      (by decide) (by decide) (by decide) (Or.inr (by decide)),
   by decide, by decide, by decide⟩

end Semver
